import Mathlib

/-!
Verification development for the advective reconstruction engine of the
pyrticle particle-in-cell code (`src/cpp/rec_advective.hpp`).

The C++ core is shallowly embedded over exact rationals (`ℚ` stands for the
C++ `double`; the claims under study concern the exact algebraic structure of
the computations, not floating-point rounding).  Machine element ids are
`ℕ` with the C++ `INVALID_ELEMENT` sentinel (`UINT_MAX`) kept as an explicit
constant.  `std::vector`/ublas vectors become `List ℚ`, matrices become row
lists `List (List ℚ)`.  Fallible code (every `throw` site) returns `Except`.
Undefined behaviour (dereferencing a null element pointer) is modelled as a
distinguished fatal outcome of its own.
-/

namespace Pyrticle

/-- `mesh_data::INVALID_ELEMENT` (`UINT_MAX` in the source). -/
def INVALID_ELEMENT : ℕ := 4294967295

/-- `inner_prod` of two coefficient vectors (truncating at the shorter one,
as ublas does for equal-sized operands). -/
def dotQ (a b : List ℚ) : ℚ := (List.zipWith (fun x y => x * y) a b).sum

/-- `subrange(v, start, start+len)`: the slab of `v` starting at `start`. -/
def slab (v : List ℚ) (start len : ℕ) : List ℚ := (v.drop start).take len

/-- `subrange(v, s, s+w.length) += c * w`: add a scalar multiple of `w` into
the window of `v` at offset `s`. -/
def addScaledAt (v : List ℚ) (s : ℕ) (c : ℚ) (w : List ℚ) : List ℚ :=
  v.take s ++ List.zipWith (fun x y => x + c * y) (v.drop s) w ++ v.drop (s + w.length)

/-- `subrange(v, s, s+len) *= c` (ublas scales each entry in place). -/
def scaleSlab (v : List ℚ) (s len : ℕ) (c : ℚ) : List ℚ :=
  v.take s ++ ((v.drop s).take len).map (fun x => x * c) ++ v.drop (s + len)

/-- `subrange(v, s, s+w.length) = w`: overwrite a window of `v` with `w`. -/
def setSlab (v : List ℚ) (s : ℕ) (w : List ℚ) : List ℚ :=
  v.take s ++ w ++ v.drop (s + w.length)

/-- Row-matrix times vector. -/
def matVec (m : List (List ℚ)) (v : List ℚ) : List ℚ := m.map (fun row => dotQ row v)

/-- The batched `gemm` pattern of the source: apply one `dofs`-square matrix
to each of the first `nslabs` contiguous slabs of the packed vector
(`gemm('T','N', …, ldb = ldc = m_dofs_per_element)`). -/
def batchMatVec (m : List (List ℚ)) (nslabs dpe : ℕ) (v : List ℚ) : List ℚ :=
  (List.range nslabs).flatMap (fun s => matVec m (slab v (s * dpe) dpe))

/-- Pointwise sum of two vectors (ublas `+`, equal sizes in the source). -/
def addVec (a b : List ℚ) : List ℚ := List.zipWith (fun x y => x + y) a b

/-- `l.set i (f (l.getD i d))` helper: rewrite one entry through `f`. -/
def updateNth (l : List ℚ) (i : ℕ) (f : ℚ → ℚ) : List ℚ :=
  l.set i (f (l.getD i 0))

-- ---------------------------------------------------------------------------
-- data model (`active_element`, `advected_particle`, `advective_state`)
-- ---------------------------------------------------------------------------

/-- `active_element`: `m_element_info` is externally owned, so the element
keeps only the stable id; `m_connections` entries use `INVALID_ELEMENT` as
the not-connected sentinel (positions beyond the list behave as `INVALID`,
matching the `boost::array` initialised to `INVALID_ELEMENT`). -/
structure Elem where
  id : ℕ
  conns : List ℕ
  startIndex : ℕ
  minLife : ℕ
  deriving Repr, DecidableEq

/-- `advected_particle`.  `shape0` is the value of `m_shape_function` at the
zero vector (the shape function internals are an external collaborator;
`calculate_fluxes` only ever evaluates it at zero). -/
structure Particle where
  shape0 : ℚ
  elements : List Elem
  deriving Repr, DecidableEq

/-- The slice of `advective_state` that the allocator and the flux/divergence
kernels touch: the packed coefficient vector `rho`, the live-slab count and
the free list.  `rho.length` plays the role of `rho.size()`. -/
structure AdvState where
  activeElements : ℕ
  freelist : List ℕ
  rho : List ℚ
  deriving Repr, DecidableEq

/-- `advective_state::resize`: copy the common prefix, the tail of the new
vector is fresh storage (modelled as zeros; every consumer in the core
overwrites a freshly allocated slab before reading it). -/
def stateResize (s : AdvState) (newSize : ℕ) : AdvState :=
  { s with rho := s.rho.take newSize ++ List.replicate (newSize - s.rho.length) 0 }

/-- `find_element`: linear scan by element id, `INVALID_ELEMENT` finds
nothing. -/
def findElement (els : List Elem) (en : ℕ) : Option Elem :=
  if en = INVALID_ELEMENT then none else els.find? (fun el => el.id = en)

-- ---------------------------------------------------------------------------
-- mesh collaborator interface
-- ---------------------------------------------------------------------------

/-- One side of a `hedge::face_pair` as `calculate_fluxes` consumes it
(`element_id`, `face_jacobian`, `normal`, and the resolved face index list
`fg.index_list(face_index_list_number)`). -/
structure FaceSideM where
  elementId : ℕ
  faceJacobian : ℚ
  normal : List ℚ
  indexList : List ℕ
  deriving Repr, DecidableEq

/-- A two-sided `hedge::face_pair`; a boundary face has
`opp.elementId = INVALID_ELEMENT`. -/
structure FacePairM where
  loc : FaceSideM
  opp : FaceSideM
  deriving Repr, DecidableEq

/-- The mesh/geometry collaborator: the `(element, face) → face_pair` lookup
map (`none` models a missing entry, where `map_get` would throw), the
per-element face-neighbor lists (`element_info::m_faces`, entries may be
`INVALID_ELEMENT`), and per-element jacobian and inverse geometric map. -/
structure MeshData where
  pairLookup : ℕ → ℕ → Option FacePairM
  elementFaces : List (List ℕ)
  jacobian : ℕ → ℚ
  inverseMap : ℕ → List (List ℚ)

/-- Neighbor list of one element (`einfo.m_faces`, neighbor ids). -/
def facesOf (md : MeshData) (en : ℕ) : List ℕ := md.elementFaces.getD en []

/-- Mesh adjacency is symmetric: if `x` is listed as a face-neighbor of `y`
then `y` is listed as a face-neighbor of `x`. -/
def MeshSym (md : MeshData) : Prop :=
  ∀ y x, x ∈ facesOf md y → x ≠ INVALID_ELEMENT → y ∈ facesOf md x

/-- Reconstructor configuration (validated members of
`advective_reconstructor`). -/
structure Config where
  facesPerElement : ℕ
  dofsPerElement : ℕ
  massMatrix : List (List ℚ)
  inverseMassMatrix : List (List ℚ)
  filterMatrix : List (List ℚ)
  faceMassMatrix : List (List ℚ)
  localDiffMatrices : List (List (List ℚ))
  activationThreshold : ℚ
  killThreshold : ℚ
  upwindAlpha : ℚ
  dimensionsMesh : ℕ
  vdim : ℕ

/-- `m_integral_weights = prod(m_mass_matrix, scalar_vector(1))`: the row
sums of the mass matrix. -/
def integralWeights (cfg : Config) : List ℚ := cfg.massMatrix.map List.sum

/-- `v = subrange(velocities, vdim*pn, vdim*(pn+1))`. -/
def velSlice (vdim pn : ℕ) (velocities : List ℚ) : List ℚ :=
  (velocities.drop (vdim * pn)).take vdim

-- ---------------------------------------------------------------------------
-- state vector allocator
-- ---------------------------------------------------------------------------

/-- `allocate_element`: pop a free slab (LIFO) if one exists, otherwise claim
the past-end slab, doubling the backing array first when it is full.
Returns the new state and the slab's base offset. -/
def allocate_element (dpe : ℕ) (s : AdvState) : AdvState × ℕ :=
  match s.freelist with
  | idx :: rest =>
      ({ s with activeElements := s.activeElements + 1, freelist := rest }, idx * dpe)
  | [] =>
      let avlSpace := s.rho.length / dpe
      let s1 := if s.activeElements = avlSpace then stateResize s (2 * s.rho.length) else s
      ({ s1 with activeElements := s1.activeElements + 1 }, s1.activeElements * dpe)

/-- `deallocate_element`: fails on a misaligned offset; pushes the freed slab
index onto the free list unless it was the logically-last live slab. -/
def deallocate_element (dpe : ℕ) (s : AdvState) (startIndex : ℕ) : Except String AdvState :=
  if startIndex % dpe ≠ 0 then .error "invalid advective element deallocation"
  else
    let elIndex := startIndex / dpe
    let active := s.activeElements - 1
    .ok { s with
      activeElements := active,
      freelist :=
        if elIndex ≠ active + s.freelist.length then elIndex :: s.freelist else s.freelist }

/-- Allocator operations for whole-run statements about the allocator: one
allocation, or deallocation of the `i`-th currently live slab ("deallocate
applied only to currently live slabs"). -/
inductive AllocOp where
  | alloc : AllocOp
  | dealloc (i : ℕ) : AllocOp
  deriving Repr, DecidableEq

/-- Run a sequence of allocator operations, tracking the list of live slab
indices (in allocation order) alongside the allocator state.  A `dealloc i`
naming no live slab is a no-op (the quantified claims only concern runs that
deallocate live slabs, which this enforces by construction). -/
def runOps (dpe : ℕ) : List AllocOp → AdvState × List ℕ → AdvState × List ℕ
  | [], sl => sl
  | .alloc :: ops, (s, live) =>
      let r := allocate_element dpe s
      runOps dpe ops (r.1, live ++ [r.2 / dpe])
  | .dealloc i :: ops, (s, live) =>
      if i < live.length then
        match deallocate_element dpe s (live.getD i 0 * dpe) with
        | .ok s1 => runOps dpe ops (s1, live.eraseIdx i)
        | .error _ => runOps dpe ops (s, live)
      else runOps dpe ops (s, live)

/-- A fresh `advective_state` over a backing array of `cap0` coefficients. -/
def initState (cap0 : ℕ) : AdvState := ⟨0, [], List.replicate cap0 0⟩

/-- The allocator invariant: the live slab indices and the free list together
enumerate exactly the contiguous in-use region `0 … active+freelist-1`, the
live count matches, and the in-use region fits the backing array, whose size
stays a positive multiple of `dofs_per_element`. -/
def AllocInv (dpe : ℕ) (s : AdvState) (live : List ℕ) : Prop :=
  (live ++ s.freelist).Perm (List.range (s.activeElements + s.freelist.length)) ∧
  s.activeElements = live.length ∧
  0 < s.rho.length ∧ dpe ∣ s.rho.length ∧
  s.activeElements + s.freelist.length ≤ s.rho.length / dpe

-- ---------------------------------------------------------------------------
-- flux coefficients and the activation test (calculate_fluxes, per face)
-- ---------------------------------------------------------------------------

/-- Interior flux coefficient (source lines 828–832):
`face_jacobian * (-n·v) * (α*(1 - (inflow ? 0 : 1)) + (1-α)*0.5)`
with `inflow ↔ n·v ≤ 0`. -/
def int_coeff (faceJacobian nDotV alpha : ℚ) : ℚ :=
  faceJacobian * (-nDotV) *
    (alpha * (1 - (if nDotV ≤ 0 then (0 : ℚ) else 1)) + (1 - alpha) * (1/2))

/-- Exterior flux coefficient (source lines 833–837):
`face_jacobian * (-n·v) * (α*-(inflow ? 1 : 0) + (1-α)*-0.5)`. -/
def ext_coeff (faceJacobian nDotV alpha : ℚ) : ℚ :=
  faceJacobian * (-nDotV) *
    (alpha * -(if nDotV ≤ 0 then (1 : ℚ) else 0) + (1 - alpha) * (-(1/2)))

/-- The interior coefficient as claim C1 words it: the α-term carries
`[1 if outflow else 0]`. -/
def claimedIntCoeff (faceJacobian nDotV alpha : ℚ) : ℚ :=
  faceJacobian * (-nDotV) *
    (alpha * (if nDotV ≤ 0 then (0 : ℚ) else 1) + (1 - alpha) * (1/2))

/-- `max |rho[base + idx]|` along a face trace, folded from `0` exactly as
the source's `max_density` loop does. -/
def maxFaceDensity (rho : List ℚ) (base : ℕ) (idxList : List ℕ) : ℚ :=
  idxList.foldl (fun m i => max m |rho.getD (base + i) 0|) 0

/-- The complete dynamic-activation test of `calculate_fluxes`
(lines 842 and 852): the face is interior, the connection is not yet active,
the flow is outward (`¬(n·v ≤ 0)`), and the trace maximum strictly exceeds
`activation_threshold * |shape_peak|`. -/
def activationFires (isBoundary active : Bool) (nDotV maxDensity threshold shapePeak : ℚ) :
    Bool :=
  !isBoundary && !active && !(decide (nDotV ≤ 0)) &&
    decide (threshold * |shapePeak| < maxDensity)

-- ---------------------------------------------------------------------------
-- particle construction (add_advective_particle)
-- ---------------------------------------------------------------------------

/-- `element_integral(jacobian, ve) = jacobian * inner_prod(m_integral_weights, ve)`. -/
def element_integral (w : List ℚ) (jacobian : ℚ) (v : List ℚ) : ℚ := jacobian * dotQ w v

/-- `element_l1(jacobian, ve) = jacobian * inner_prod(m_integral_weights, |ve|)`. -/
def element_l1 (w : List ℚ) (jacobian : ℚ) (v : List ℚ) : ℚ :=
  jacobian * dotQ w (v.map (fun x => |x|))

/-- The "make connections" loop of `add_advective_particle` (lines 618–630):
for every covering element and every mesh face, the connection names the
face-neighbor exactly when that neighbor is itself part of the new patch
(entries start out `INVALID_ELEMENT` from the `active_element` constructor). -/
def connectPatch (md : MeshData) (els : List Elem) : List Elem :=
  els.map (fun el =>
    { el with conns := (facesOf md el.id).map (fun nb =>
        if (findElement els nb).isSome then nb else INVALID_ELEMENT) })

/-- `unscaled_masses`: per-element `element_integral` over the raw sampled
slabs. -/
def unscaledMasses (cfg : Config) (md : MeshData) (rho : List ℚ) (els : List Elem) :
    List ℚ :=
  els.map (fun el =>
    element_integral (integralWeights cfg) (md.jacobian el.id)
      (slab rho el.startIndex cfg.dofsPerElement))

/-- Quadrature-weighted integral of a whole patch's DOFs. -/
def patchIntegral (cfg : Config) (md : MeshData) (rho : List ℚ) (els : List Elem) : ℚ :=
  (unscaledMasses cfg md rho els).sum

/-- The final scaling loop of `add_advective_particle`: every patch slab is
multiplied in place by the common factor. -/
def scaleAllSlabs (dpe : ℕ) (els : List Elem) (rho : List ℚ) (c : ℚ) : List ℚ :=
  els.foldl (fun r el => scaleSlab r el.startIndex dpe c) rho

/-- `add_advective_particle`, from the point where the external element
finder has produced the covering patch `sampled` and written the raw shape
samples into `st.rho` (the finder and the shape function are external
collaborators).  Returns the new state, the new particle, and whether the
zero-total-mass warning was emitted.  The function always returns: the
degenerate case only warns, it does not throw. -/
def add_advective_particle (cfg : Config) (md : MeshData) (st : AdvState)
    (sampled : List Elem) (shape0 charge : ℚ) : AdvState × Particle × Bool :=
  let els := connectPatch md sampled
  let masses := unscaledMasses cfg md st.rho els
  let totalUnscaledMass := masses.sum
  let scale := if totalUnscaledMass = 0 then charge else charge / totalUnscaledMass
  ({ st with rho := scaleAllSlabs cfg.dofsPerElement els st.rho scale },
   ⟨shape0, els⟩, decide (totalUnscaledMass = 0))

-- ---------------------------------------------------------------------------
-- upkeep / retirement (perform_reconstructor_upkeep)
-- ---------------------------------------------------------------------------

/-- Null out every connection entry of `el` that points at `en`. -/
def eraseConnTo (el : Elem) (en : ℕ) : Elem :=
  { el with conns := el.conns.map (fun c => if c = en then INVALID_ELEMENT else c) }

/-- Apply `f` to the first element with id `tid` (what mutating through the
`find_element` pointer does); no element of that id, no change. -/
def updateFirstWithId (els : List Elem) (tid : ℕ) (f : Elem → Elem) : List Elem :=
  match els with
  | [] => []
  | e :: rest => if e.id = tid then f e :: rest else e :: updateFirstWithId rest tid f

/-- The "kill connections" loop of retirement (lines 365–378): for every
non-`INVALID` connection of the dying element, sever the sibling's entries
pointing back at it.  The source dereferences `*p.find_element(connected_en)`
unconditionally, so a connection naming a missing element is a null-pointer
dereference (modelled as a fatal error). -/
def killConnections (els : List Elem) (en : ℕ) : List ℕ → Except String (List Elem)
  | [] => .ok els
  | c :: rest =>
    if c ≠ INVALID_ELEMENT then
      match findElement els c with
      | none => .error "null dereference: connected element not found"
      | some _ =>
          killConnections (updateFirstWithId els c (fun b => eraseConnTo b en)) en rest
    else killConnections els en rest

/-- The connection-severing and element-removal part of one retirement of
`els[i]` (slab deallocation is handled by the caller). -/
def retireStep (els : List Elem) (i : ℕ) : Except String (List Elem) :=
  let el := els.getD i ⟨0, [], 0, 0⟩
  match killConnections els el.id el.conns with
  | .error e => .error e
  | .ok els1 => .ok (els1.eraseIdx i)

/-- The per-particle loop body of `perform_reconstructor_upkeep`
(lines 345–387), embedded verbatim: a `for (…; ++i_el)` loop whose body
*also* executes `++i_el` in the non-retirement branch, so the retirement
branch continues at `i_el + 1` (erase, then the `for` update) and the other
branch at `i_el + 2` (`else ++i_el`, then the `for` update).  `fuel` bounds
the iteration count of the embedding; the source loop needs at most one
iteration per element. -/
def upkeepPass (cfg : Config) (md : MeshData) (particleCharge : ℚ) :
    ℕ → ℕ → List Elem → AdvState → Except String (List Elem × AdvState)
  | 0, i_el, els, st =>
      if i_el < els.length then .error "out of fuel" else .ok (els, st)
  | fuel + 1, i_el, els, st =>
    if h : i_el < els.length then
      let el := els.get ⟨i_el, h⟩
      let el1 := if el.minLife ≠ 0 then { el with minLife := el.minLife - 1 } else el
      let elementCharge := element_l1 (integralWeights cfg) (md.jacobian el1.id)
          (slab st.rho el1.startIndex cfg.dofsPerElement)
      if el1.minLife = 0 ∧ elementCharge / particleCharge < cfg.killThreshold then
        match retireStep (els.set i_el el1) i_el with
        | .error e => .error e
        | .ok els1 =>
          match deallocate_element cfg.dofsPerElement st el1.startIndex with
          | .error e => .error e
          | .ok st1 => upkeepPass cfg md particleCharge fuel (i_el + 1) els1 st1
      else upkeepPass cfg md particleCharge fuel (i_el + 2) (els.set i_el el1) st
    else .ok (els, st)

/-- `perform_reconstructor_upkeep` for one particle, including the
zero-threshold guard of the surrounding function. -/
def perform_upkeep_particle (cfg : Config) (md : MeshData) (charge : ℚ)
    (els : List Elem) (st : AdvState) : Except String (List Elem × AdvState) :=
  if cfg.killThreshold = 0 then .error "zero kill threshold"
  else upkeepPass cfg md |charge| (els.length + 1) 0 els st

/-- What the spec says one upkeep pass does: visit every element once,
decrement a nonzero `min_life`, and drop exactly the elements whose
`min_life` has reached zero and whose charge ratio is below the threshold. -/
def upkeepSpecPass (cfg : Config) (md : MeshData) (particleCharge : ℚ)
    (els : List Elem) (st : AdvState) : List Elem :=
  (els.map (fun el => if el.minLife ≠ 0 then { el with minLife := el.minLife - 1 } else el)).filter
    (fun el => ¬ (el.minLife = 0 ∧
      element_l1 (integralWeights cfg) (md.jacobian el.id)
          (slab st.rho el.startIndex cfg.dofsPerElement) / particleCharge <
        cfg.killThreshold))

-- ---------------------------------------------------------------------------
-- local divergence (calculate_local_div)
-- ---------------------------------------------------------------------------

/-- The per-axis batched `gemm` producing the reference-space derivatives of
all packed slabs (active and free alike), concatenated axis after axis into
one vector of length `dimensions * rho.size()` (the remainder of each cleared
axis block stays zero).  `m_local_diff_matrices.at(axis)` is in range by the
ordered-registration guard of `add_local_diff_matrix`. -/
def rstDerivs (cfg : Config) (st : AdvState) : List ℚ :=
  let dofs := st.rho.length
  let n := st.activeElements + st.freelist.length
  (List.range cfg.dimensionsMesh).flatMap (fun ax =>
    setSlab (List.replicate dofs 0) 0
      (batchMatVec (cfg.localDiffMatrices.getD ax []) n cfg.dofsPerElement st.rho))

/-- `coeff = Σ_glob -v[glob] * m_inverse_map(loc, glob)`. -/
def divCoeff (v : List ℚ) (invMap : List (List ℚ)) (locAxis dim : ℕ) : ℚ :=
  (List.range dim).foldl
    (fun acc g => acc + -(v.getD g 0) * ((invMap.getD locAxis []).getD g 0)) 0

/-- Accumulate one element's physical-space advective term into `acc`. -/
def divAccumElement (cfg : Config) (md : MeshData) (v : List ℚ) (dofs : ℕ)
    (rst : List ℚ) (acc : List ℚ) (el : Elem) : List ℚ :=
  (List.range cfg.dimensionsMesh).foldl (fun acc2 locAxis =>
    addScaledAt acc2 el.startIndex
      (divCoeff v (md.inverseMap el.id) locAxis cfg.dimensionsMesh)
      (slab rst (locAxis * dofs + el.startIndex) cfg.dofsPerElement)) acc

/-- `calculate_local_div` (lines 668–737): reference-space derivatives by
batched matrix multiply, combined per active element through the inverse
geometric map and the negated particle velocity. -/
def calculate_local_div (cfg : Config) (md : MeshData) (particles : List Particle)
    (st : AdvState) (velocities : List ℚ) : List ℚ :=
  let dofs := st.rho.length
  let rst := rstDerivs cfg st
  particles.enum.foldl (fun acc pnp =>
    let v := velSlice cfg.vdim pnp.1 velocities
    pnp.2.elements.foldl (divAccumElement cfg md v dofs rst) acc)
    (List.replicate dofs 0)

-- ---------------------------------------------------------------------------
-- flux computation (calculate_fluxes)
-- ---------------------------------------------------------------------------

/-- Every fatal outcome of `calculate_fluxes`.  `nullDeref` is not a source
`throw`: it marks the undefined behaviour of reading through a null element
pointer.  `outOfFuel` is an artifact of bounding the embedded loop. -/
inductive FluxError where
  | zeroActivationThreshold
  | mapMiss
  | crossBoundary
  | elFaceLookup
  | boundaryActive
  | oppNotInOppNeigh
  | nullDeref
  | oppositeNotFound
  | outOfFuel
  deriving Repr, DecidableEq

/-- The connection-reconciliation loop of dynamic activation (lines 881–928):
walk the faces of the newly activated element `opp_en`; every face-neighbor
already in the patch is recorded in `opp`'s connection array and told about
`opp` at the face position where its own face list names `opp_en` (failing
fatally when it does not). -/
def wireFold (md : MeshData) (opp_en : ℕ) :
    List ℕ → List ℕ → List Elem → Except FluxError (List ℕ × List Elem)
  | [], conns, els => .ok (conns, els)
  | nb :: rest, conns, els =>
    match findElement els nb with
    | none => wireFold md opp_en rest (conns ++ [INVALID_ELEMENT]) els
    | some _ =>
        let idx := (facesOf md nb).indexOf opp_en
        if idx = (facesOf md nb).length then .error .oppNotInOppNeigh
        else wireFold md opp_en rest (conns ++ [nb])
          (updateFirstWithId els nb (fun b => { b with conns := b.conns.set idx opp_en }))

/-- Wire a newly activated element (slab offset `startIdx`, protective
`m_min_life = 10`) into the patch and append it. -/
def activateWire (md : MeshData) (els : List Elem) (opp_en startIdx : ℕ) :
    Except FluxError (List Elem) :=
  match wireFold md opp_en (facesOf md opp_en) [] els with
  | .error e => .error e
  | .ok (conns, els1) => .ok (els1 ++ [⟨opp_en, conns, startIdx, 10⟩])

/-- `m_face_mass_matrix(i, j)`. -/
def faceMassEntry (cfg : Config) (i j : ℕ) : ℚ := (cfg.faceMassMatrix.getD i []).getD j 0

/-- The active-face bilinear accumulation (lines 955–979): for every trace
node `i`, add `Σ_j rho[ilj]*int_coeff*fmm(i,j) + rho[oilj]*ext_coeff*fmm(i,j)`
into `fluxes[ili]`. -/
def accumActive (cfg : Config) (rho fluxes : List ℚ) (thisBase oppBase : ℕ)
    (idxList oppIdxList : List ℕ) (intC extC : ℚ) : List ℚ :=
  let faceLength := cfg.faceMassMatrix.length
  (List.range faceLength).foldl (fun fl i =>
    let addend := (List.range faceLength).foldl (fun acc j =>
      acc + rho.getD (thisBase + idxList.getD j 0) 0 * intC * faceMassEntry cfg i j
          + rho.getD (oppBase + oppIdxList.getD j 0) 0 * extC * faceMassEntry cfg i j) 0
    updateNth fl (thisBase + idxList.getD i 0) (fun x => x + addend)) fluxes

/-- The inflow-from-inactive accumulation (lines 984–1001): exterior trace
treated as zero, only the interior contribution is added. -/
def accumInflow (cfg : Config) (rho fluxes : List ℚ) (thisBase : ℕ)
    (idxList : List ℕ) (intC : ℚ) : List ℚ :=
  let faceLength := cfg.faceMassMatrix.length
  (List.range faceLength).foldl (fun fl i =>
    let addend := (List.range faceLength).foldl (fun acc j =>
      acc + rho.getD (thisBase + idxList.getD j 0) 0 * intC * faceMassEntry cfg i j) 0
    updateNth fl (thisBase + idxList.getD i 0) (fun x => x + addend)) fluxes

/-- One face of one active element inside `calculate_fluxes`
(lines 768–1002): face-pair resolution with its consistency guards, the
inflow/outflow classification, the blended flux coefficients, dynamic
activation, and the flux accumulation.  The source reads
`opp_el->m_start_index` *before* its `opp_el == 0` check, so a missing
opposite element of an active connection crashes (`nullDeref`) and the
`oppositeNotFound` throw below that read is unreachable. -/
def processFace (cfg : Config) (md : MeshData) (v : List ℚ) (shapePeak : ℚ)
    (p : Particle) (st : AdvState) (fluxes : List ℚ) (i_el fn : ℕ) :
    Except FluxError (Particle × AdvState × List ℚ) :=
  let el := p.elements.getD i_el ⟨0, [], 0, 0⟩
  let en := el.id
  match md.pairLookup en fn with
  | none => .error .mapMiss
  | some fp =>
    let isFaceB : Bool := en != fp.loc.elementId
    let isBoundary : Bool := fp.opp.elementId == INVALID_ELEMENT
    if isBoundary && isFaceB then .error .crossBoundary
    else if isFaceB && (en != fp.opp.elementId) then .error .elFaceLookup
    else
      let fluxFace := if isFaceB then fp.opp else fp.loc
      let oppositeFluxFace := if isFaceB then fp.loc else fp.opp
      let idxList := fluxFace.indexList
      let oppIdxList := oppositeFluxFace.indexList
      let nDotV := dotQ v fluxFace.normal
      let inflow : Bool := decide (nDotV ≤ 0)
      let active : Bool := el.conns.getD fn INVALID_ELEMENT != INVALID_ELEMENT
      if isBoundary && active then .error .boundaryActive
      else
        let intC := int_coeff fluxFace.faceJacobian nDotV cfg.upwindAlpha
        let extC := ext_coeff fluxFace.faceJacobian nDotV cfg.upwindAlpha
        let thisBaseIdx := el.startIndex
        let maxDensity := maxFaceDensity st.rho thisBaseIdx idxList
        let act :
            Except FluxError (Particle × AdvState × List ℚ × Bool) :=
          if activationFires isBoundary active nDotV maxDensity
              cfg.activationThreshold shapePeak then
            let oppEn := oppositeFluxFace.elementId
            let r := allocate_element cfg.dofsPerElement st
            let st1 := { r.1 with
              rho := setSlab r.1.rho r.2 (List.replicate cfg.dofsPerElement 0) }
            let fluxes1 :=
              if st1.rho.length ≠ fluxes.length
              then fluxes ++ List.replicate (st1.rho.length - fluxes.length) 0
              else fluxes
            match activateWire md p.elements oppEn r.2 with
            | .error e => .error e
            | .ok els1 => .ok (⟨p.shape0, els1⟩, st1, fluxes1, true)
          else .ok (p, st, fluxes, active)
        match act with
        | .error e => .error e
        | .ok (p1, st1, fluxes1, active1) =>
          let el1 := p1.elements.getD i_el ⟨0, [], 0, 0⟩
          if active1 then
            match findElement p1.elements (el1.conns.getD fn INVALID_ELEMENT) with
            | none => .error .nullDeref
            | some oppEl =>
                .ok (p1, st1,
                  accumActive cfg st1.rho fluxes1 thisBaseIdx oppEl.startIndex
                    idxList oppIdxList intC extC)
          else if inflow then
            .ok (p1, st1, accumInflow cfg st1.rho fluxes1 thisBaseIdx idxList intC)
          else .ok (p1, st1, fluxes1)

/-- The inner face loop `for (fn = 0; fn < m_faces_per_element; ++fn)`,
structurally recursive on the number of remaining faces. -/
def faceLoop (cfg : Config) (md : MeshData) (v : List ℚ) (shapePeak : ℚ) (i_el : ℕ) :
    ℕ → ℕ → Particle → AdvState → List ℚ →
    Except FluxError (Particle × AdvState × List ℚ)
  | 0, _, p, st, fl => .ok (p, st, fl)
  | remaining + 1, fn, p, st, fl =>
    match processFace cfg md v shapePeak p st fl i_el fn with
    | .error e => .error e
    | .ok (p1, st1, fl1) => faceLoop cfg md v shapePeak i_el remaining (fn + 1) p1 st1 fl1

/-- The element loop `for (i_el = 0; i_el < p.m_elements.size(); ++i_el)`;
the element list can grow while it is being walked (dynamic activation
appends), so the embedding carries an explicit iteration bound. -/
def elementLoop (cfg : Config) (md : MeshData) (v : List ℚ) (shapePeak : ℚ) :
    ℕ → ℕ → Particle → AdvState → List ℚ →
    Except FluxError (Particle × AdvState × List ℚ)
  | 0, i_el, p, st, fl =>
      if i_el < p.elements.length then .error .outOfFuel else .ok (p, st, fl)
  | fuel + 1, i_el, p, st, fl =>
    if i_el < p.elements.length then
      match faceLoop cfg md v shapePeak i_el cfg.facesPerElement 0 p st fl with
      | .error e => .error e
      | .ok (p1, st1, fl1) => elementLoop cfg md v shapePeak fuel (i_el + 1) p1 st1 fl1
    else .ok (p, st, fl)

/-- The outer particle loop of `calculate_fluxes`:
`shape_peak = m_shape_function(0) * ps.charges[pn]`, the particle's velocity
is the `vdim`-slice of the packed velocity vector. -/
def particleLoop (cfg : Config) (md : MeshData) (velocities charges : List ℚ)
    (fuel : ℕ) :
    ℕ → List Particle → AdvState → List ℚ →
    Except FluxError (List Particle × AdvState × List ℚ)
  | _, [], st, fl => .ok ([], st, fl)
  | pn, p :: rest, st, fl =>
    let shapePeak := p.shape0 * charges.getD pn 0
    let v := velSlice cfg.vdim pn velocities
    match elementLoop cfg md v shapePeak fuel 0 p st fl with
    | .error e => .error e
    | .ok (p1, st1, fl1) =>
      match particleLoop cfg md velocities charges fuel (pn + 1) rest st1 fl1 with
      | .error e => .error e
      | .ok (rest1, st2, fl2) => .ok (p1 :: rest1, st2, fl2)

/-- `calculate_fluxes` (lines 742–1010): zero-threshold guard, a cleared flux
accumulator of the state-vector size, then the triple loop. -/
def calculate_fluxes (cfg : Config) (md : MeshData) (fuel : ℕ)
    (particles : List Particle) (charges : List ℚ) (st : AdvState)
    (velocities : List ℚ) :
    Except FluxError (List Particle × AdvState × List ℚ) :=
  if cfg.activationThreshold = 0 then .error .zeroActivationThreshold
  else particleLoop cfg md velocities charges fuel 0 particles st
    (List.replicate st.rho.length 0)

-- ---------------------------------------------------------------------------
-- mass inversion and filtered application
-- ---------------------------------------------------------------------------

/-- `apply_elementwise_inverse_mass_matrix` (lines 1015–1056): one batched
multiply of all packed slabs by the inverse mass matrix into a cleared
result, then per-active-element scaling by `1/jacobian`. -/
def apply_elementwise_inverse_mass_matrix (cfg : Config) (md : MeshData)
    (particles : List Particle) (st : AdvState) (operand : List ℚ) : List ℚ :=
  let n := st.activeElements + st.freelist.length
  let result := setSlab (List.replicate st.rho.length 0) 0
    (batchMatVec cfg.inverseMassMatrix n cfg.dofsPerElement operand)
  particles.foldl (fun acc p =>
    p.elements.foldl (fun acc2 el =>
      scaleSlab acc2 el.startIndex cfg.dofsPerElement (1 / md.jacobian el.id)) acc) result

/-- `apply_advective_particle_rhs` (lines 1074–1106): with a filter matrix of
nonzero dimensions the density receives the batched filter multiply of the
right-hand side (`gemm` with `beta = 1` accumulates into `rho`); otherwise
the update is the plain element-wise `rho += rhs`. -/
def apply_advective_particle_rhs (cfg : Config) (st : AdvState) (rhs : List ℚ) :
    AdvState :=
  if 0 < cfg.filterMatrix.length ∧ 0 < (cfg.filterMatrix.headD []).length then
    let n := st.activeElements + st.freelist.length
    { st with rho :=
        addScaledAt st.rho 0 1 (batchMatVec cfg.filterMatrix n cfg.dofsPerElement rhs) }
  else { st with rho := addVec st.rho rhs }

-- ---------------------------------------------------------------------------
-- connectivity predicates
-- ---------------------------------------------------------------------------

/-- The bidirectional-connection invariant of the spec: if A's connection
array names B then B's connection array names A. -/
def SymmetricConns (els : List Elem) : Prop :=
  ∀ a ∈ els, ∀ b ∈ els, b.id ∈ a.conns → a.id ∈ b.conns

/-- Connection arrays are exactly as long as the element's mesh face list. -/
def ConnsLengthOk (md : MeshData) (els : List Elem) : Prop :=
  ∀ el ∈ els, el.conns.length = (facesOf md el.id).length

/-- A non-`INVALID` connection at face `i` names the mesh neighbor across
face `i`. -/
def ConnsAligned (md : MeshData) (els : List Elem) : Prop :=
  ∀ el ∈ els, ∀ i, el.conns.getD i INVALID_ELEMENT ≠ INVALID_ELEMENT →
    (facesOf md el.id).getD i INVALID_ELEMENT = el.conns.getD i INVALID_ELEMENT

/-- Every non-`INVALID` connection names an element present in the patch. -/
def ConnsValid (els : List Elem) : Prop :=
  ∀ el ∈ els, ∀ c ∈ el.conns, c ≠ INVALID_ELEMENT → ∃ b ∈ els, b.id = c

/-- Patch ids are pairwise distinct and none is the `INVALID` sentinel. -/
def IdsOk (els : List Elem) : Prop :=
  (els.map Elem.id).Nodup ∧ ∀ el ∈ els, el.id ≠ INVALID_ELEMENT

-- ---------------------------------------------------------------------------
-- side conditions for whole-call statements about calculate_fluxes
-- ---------------------------------------------------------------------------

/-- All face-pair bookkeeping a face visit relies on: the lookup hits, the
cross-boundary/el-face consistency guards pass, a boundary face has no
active connection, and an active connection resolves in the patch. -/
def faceOK (md : MeshData) (els : List Elem) (el : Elem) (fn : ℕ) : Bool :=
  match md.pairLookup el.id fn with
  | none => false
  | some fp =>
    let isFaceB : Bool := el.id != fp.loc.elementId
    let isBoundary : Bool := fp.opp.elementId == INVALID_ELEMENT
    let active : Bool := el.conns.getD fn INVALID_ELEMENT != INVALID_ELEMENT
    !(isBoundary && isFaceB) &&
    (!isFaceB || (el.id == fp.opp.elementId)) &&
    !(isBoundary && active) &&
    (!active || (findElement els (el.conns.getD fn INVALID_ELEMENT)).isSome)

/-- Every face of every element of the particle passes `faceOK`. -/
def PatchFacesOK (cfg : Config) (md : MeshData) (p : Particle) : Prop :=
  ∀ el ∈ p.elements, ∀ fn < cfg.facesPerElement, faceOK md p.elements el fn = true

-- ---------------------------------------------------------------------------
-- whole-run allocator statements
-- ---------------------------------------------------------------------------

/-- A sequence that only deallocates. -/
def DeallocOnly (ops : List AllocOp) : Prop :=
  ∀ op ∈ ops, ∃ i, op = AllocOp.dealloc i

-- ===========================================================================
-- theorems
-- ===========================================================================

-- list-window lemmas ---------------------------------------------------------

theorem length_scaleSlab (v : List ℚ) (s len : ℕ) (c : ℚ) :
    (scaleSlab v s len c).length = v.length := by
  simp [scaleSlab]
  omega

theorem drop_take_prefix (v : List ℚ) (s : ℕ) (h : s ≤ v.length) :
    (v.take s).drop s = [] := by
  apply List.drop_eq_nil_of_le
  simp [h]

theorem slab_scaleSlab_self (v : List ℚ) (s len : ℕ) (c : ℚ) (h : s + len ≤ v.length) :
    slab (scaleSlab v s len c) s len = ((v.drop s).take len).map (fun x => x * c) := by
  unfold slab scaleSlab
  rw [List.append_assoc, List.drop_append_eq_append_drop,
    drop_take_prefix v s (by omega), List.length_take_of_le (by omega : s ≤ v.length),
    Nat.sub_self, List.nil_append, List.drop_zero, List.take_append_eq_append_take]
  have hlen : (((v.drop s).take len).map (fun x => x * c)).length = len := by
    simp
    omega
  rw [List.take_of_length_le (le_of_eq hlen), hlen, Nat.sub_self]
  simp

theorem slab_scaleSlab_disjoint (v : List ℚ) (s1 s2 len : ℕ) (c : ℚ)
    (h1 : s1 + len ≤ v.length) (hd : s2 + len ≤ s1 ∨ s1 + len ≤ s2) :
    slab (scaleSlab v s1 len c) s2 len = slab v s2 len := by
  unfold slab scaleSlab
  have hmid : (((v.drop s1).take len).map (fun x => x * c)).length = len := by
    simp
    omega
  have htk : (v.take s1).length = s1 := List.length_take_of_le (by omega)
  rcases hd with hd | hd
  · -- the scaled window lies entirely to the right of the read window
    rw [List.append_assoc, List.drop_append_eq_append_drop, htk,
      List.take_append_eq_append_take]
    have hdt : ((v.take s1).drop s2).length = s1 - s2 := by
      simp [htk]
    rw [hdt]
    have h0 : len - (s1 - s2) = 0 := by omega
    rw [h0, List.take_zero, List.append_nil, List.drop_take, List.take_take,
      min_eq_left (by omega : len ≤ s1 - s2)]
  · -- the scaled window lies entirely to the left of the read window
    rw [List.append_assoc, List.drop_append_eq_append_drop, htk]
    have hnil : (v.take s1).drop s2 = [] := by
      apply List.drop_eq_nil_of_le
      omega
    rw [hnil, List.nil_append, List.drop_append_eq_append_drop, hmid]
    have hnil2 : (((v.drop s1).take len).map (fun x => x * c)).drop (s2 - s1) = [] := by
      apply List.drop_eq_nil_of_le
      rw [hmid]
      omega
    rw [hnil2, List.nil_append, List.drop_drop]
    have harith : s1 + len + (s2 - s1 - len) = s2 := by omega
    rw [harith]

theorem dotQ_map_mul (w v : List ℚ) (c : ℚ) :
    dotQ w (v.map (fun x => x * c)) = c * dotQ w v := by
  induction w generalizing v with
  | nil => simp [dotQ]
  | cons x xs ih =>
    cases v with
    | nil => simp [dotQ]
    | cons y ys =>
      simp only [List.map_cons, dotQ, List.zipWith_cons_cons, List.sum_cons] at *
      rw [ih ys]
      ring

-- C2: charge renormalization at particle construction ------------------------

theorem element_integral_map_mul (w : List ℚ) (j c : ℚ) (v : List ℚ) :
    element_integral w j (v.map (fun x => x * c)) = c * element_integral w j v := by
  unfold element_integral
  rw [dotQ_map_mul]
  ring

theorem connectPatch_startIndex (md : MeshData) (els : List Elem) :
    (connectPatch md els).map Elem.startIndex = els.map Elem.startIndex := by
  simp [connectPatch]

theorem unscaledMasses_connectPatch (cfg : Config) (md : MeshData) (rho : List ℚ)
    (els : List Elem) :
    unscaledMasses cfg md rho (connectPatch md els) = unscaledMasses cfg md rho els := by
  simp [unscaledMasses, connectPatch]

/-- Scaling the slabs of elements all disjoint from the window at `s` leaves
that window unchanged. -/
theorem slab_scaleAllSlabs_untouched (dpe : ℕ) (els : List Elem) (rho : List ℚ)
    (c : ℚ) (s : ℕ)
    (hrange : ∀ el ∈ els, el.startIndex + dpe ≤ rho.length)
    (hd : ∀ el ∈ els, s + dpe ≤ el.startIndex ∨ el.startIndex + dpe ≤ s) :
    slab (scaleAllSlabs dpe els rho c) s dpe = slab rho s dpe := by
  induction els generalizing rho with
  | nil => simp [scaleAllSlabs]
  | cons e rest ih =>
    have he := hrange e (by simp)
    have hde := hd e (by simp)
    have step : scaleAllSlabs dpe (e :: rest) rho c =
        scaleAllSlabs dpe rest (scaleSlab rho e.startIndex dpe c) c := rfl
    rw [step, ih (scaleSlab rho e.startIndex dpe c)
      (fun el hel => by rw [length_scaleSlab]; exact hrange el (List.mem_cons_of_mem _ hel))
      (fun el hel => hd el (List.mem_cons_of_mem _ hel))]
    exact slab_scaleSlab_disjoint rho e.startIndex s dpe c he (by omega)

/-- After the scaling loop every patch slab equals the raw slab times the
common factor (slabs pairwise disjoint and in range). -/
theorem slab_scaleAllSlabs (dpe : ℕ) (els : List Elem) (rho : List ℚ) (c : ℚ)
    (hdisj : List.Pairwise (fun a b => a.startIndex + dpe ≤ b.startIndex ∨
        b.startIndex + dpe ≤ a.startIndex) els)
    (hrange : ∀ el ∈ els, el.startIndex + dpe ≤ rho.length) :
    ∀ el ∈ els, slab (scaleAllSlabs dpe els rho c) el.startIndex dpe =
      (slab rho el.startIndex dpe).map (fun x => x * c) := by
  induction els generalizing rho with
  | nil => simp
  | cons e rest ih =>
    intro el hel
    have step : scaleAllSlabs dpe (e :: rest) rho c =
        scaleAllSlabs dpe rest (scaleSlab rho e.startIndex dpe c) c := rfl
    rcases List.mem_cons.mp hel with rfl | hel
    · rw [step, slab_scaleAllSlabs_untouched dpe rest _ c el.startIndex
        (fun b hb => by rw [length_scaleSlab]; exact hrange b (List.mem_cons_of_mem _ hb))
        (fun b hb => by
          have := (List.pairwise_cons.mp hdisj).1 b hb
          omega)]
      have hcur := slab_scaleSlab_self rho el.startIndex dpe c (hrange el (by simp))
      unfold slab at hcur ⊢
      exact hcur
    · rw [step, ih (scaleSlab rho e.startIndex dpe c)
        (List.pairwise_cons.mp hdisj).2
        (fun b hb => by rw [length_scaleSlab]; exact hrange b (List.mem_cons_of_mem _ hb))
        el hel,
        slab_scaleSlab_disjoint rho e.startIndex el.startIndex dpe c
          (hrange e (by simp))
          (by have := (List.pairwise_cons.mp hdisj).1 el hel; omega)]

theorem sum_map_const_mul (c : ℚ) (l : List ℚ) :
    (l.map (fun x => c * x)).sum = c * l.sum := by
  induction l with
  | nil => simp
  | cons x xs ih => simp [ih, mul_add]

theorem patchIntegral_scaleAllSlabs (cfg : Config) (md : MeshData) (rho : List ℚ)
    (els : List Elem) (c : ℚ)
    (hdisj : List.Pairwise (fun a b => a.startIndex + cfg.dofsPerElement ≤ b.startIndex ∨
        b.startIndex + cfg.dofsPerElement ≤ a.startIndex) els)
    (hrange : ∀ el ∈ els, el.startIndex + cfg.dofsPerElement ≤ rho.length) :
    patchIntegral cfg md (scaleAllSlabs cfg.dofsPerElement els rho c) els =
      c * patchIntegral cfg md rho els := by
  have key := slab_scaleAllSlabs cfg.dofsPerElement els rho c hdisj hrange
  have hmap : unscaledMasses cfg md (scaleAllSlabs cfg.dofsPerElement els rho c) els =
      (unscaledMasses cfg md rho els).map (fun x => c * x) := by
    unfold unscaledMasses
    rw [List.map_map]
    apply List.map_congr_left
    intro el hel
    simp only [Function.comp_apply]
    rw [key el hel, element_integral_map_mul]
  unfold patchIntegral
  rw [hmap, sum_map_const_mul]

/-- C2: when the total unscaled mass of the freshly sampled patch is nonzero,
`add_advective_particle` leaves the patch with quadrature-weighted integral
exactly equal to the particle's charge; when it is exactly zero, every slab
is instead multiplied by the bare charge and the warning flag (and nothing
fatal — the function is total) is raised. -/
theorem C2_charge_renormalization (cfg : Config) (md : MeshData) (st : AdvState)
    (sampled : List Elem) (shape0 charge : ℚ)
    (hdisj : List.Pairwise (fun a b => a.startIndex + cfg.dofsPerElement ≤ b.startIndex ∨
        b.startIndex + cfg.dofsPerElement ≤ a.startIndex) sampled)
    (hrange : ∀ el ∈ sampled, el.startIndex + cfg.dofsPerElement ≤ st.rho.length) :
    (patchIntegral cfg md st.rho sampled ≠ 0 →
      patchIntegral cfg md (add_advective_particle cfg md st sampled shape0 charge).1.rho
        (add_advective_particle cfg md st sampled shape0 charge).2.1.elements = charge) ∧
    (patchIntegral cfg md st.rho sampled = 0 →
      (∀ el ∈ (add_advective_particle cfg md st sampled shape0 charge).2.1.elements,
        slab (add_advective_particle cfg md st sampled shape0 charge).1.rho
            el.startIndex cfg.dofsPerElement =
          (slab st.rho el.startIndex cfg.dofsPerElement).map (fun x => x * charge)) ∧
      (add_advective_particle cfg md st sampled shape0 charge).2.2 = true) := by
  have hdisj' : List.Pairwise (fun a b => a.startIndex + cfg.dofsPerElement ≤ b.startIndex ∨
      b.startIndex + cfg.dofsPerElement ≤ a.startIndex) (connectPatch md sampled) := by
    unfold connectPatch
    exact List.Pairwise.map _ (fun a b h => h) hdisj
  have hrange' : ∀ el ∈ connectPatch md sampled,
      el.startIndex + cfg.dofsPerElement ≤ st.rho.length := by
    intro el hel
    unfold connectPatch at hel
    obtain ⟨a, ha, rfl⟩ := List.mem_map.mp hel
    exact hrange a ha
  have hmass : patchIntegral cfg md st.rho (connectPatch md sampled) =
      patchIntegral cfg md st.rho sampled := by
    unfold patchIntegral
    rw [unscaledMasses_connectPatch]
  have hstate : (add_advective_particle cfg md st sampled shape0 charge).1.rho =
      scaleAllSlabs cfg.dofsPerElement (connectPatch md sampled) st.rho
        (if (unscaledMasses cfg md st.rho (connectPatch md sampled)).sum = 0 then charge
         else charge / (unscaledMasses cfg md st.rho (connectPatch md sampled)).sum) := rfl
  have helts : (add_advective_particle cfg md st sampled shape0 charge).2.1.elements =
      connectPatch md sampled := rfl
  have hwarn : (add_advective_particle cfg md st sampled shape0 charge).2.2 =
      decide ((unscaledMasses cfg md st.rho (connectPatch md sampled)).sum = 0) := rfl
  have hTP : (unscaledMasses cfg md st.rho (connectPatch md sampled)).sum =
      patchIntegral cfg md st.rho sampled := by
    rw [← hmass]
    rfl
  constructor
  · intro hM
    have hM' : (unscaledMasses cfg md st.rho (connectPatch md sampled)).sum ≠ 0 := by
      rw [hTP]
      exact hM
    rw [hstate, helts, if_neg hM',
      patchIntegral_scaleAllSlabs cfg md st.rho (connectPatch md sampled) _ hdisj' hrange',
      hmass, hTP]
    field_simp
  · intro hM
    have hM' : (unscaledMasses cfg md st.rho (connectPatch md sampled)).sum = 0 := by
      rw [hTP]
      exact hM
    refine ⟨?_, by rw [hwarn, hM']; simp⟩
    intro el hel
    rw [helts] at hel
    rw [hstate, if_pos hM']
    exact slab_scaleAllSlabs cfg.dofsPerElement (connectPatch md sampled) st.rho charge
      hdisj' hrange' el hel

-- C4: allocator invariants -------------------------------------------------

theorem getD_cons_eraseIdx_perm (l : List ℕ) (i : ℕ) (hi : i < l.length) :
    (l.getD i 0 :: l.eraseIdx i).Perm l := by
  induction l generalizing i with
  | nil => simp at hi
  | cons x xs ih =>
    cases i with
    | zero => simp [List.eraseIdx]
    | succ j =>
      simp only [List.getD_cons_succ, List.eraseIdx_cons_succ]
      have hj : j < xs.length := by simpa using hi
      exact (List.Perm.swap x (xs.getD j 0) (xs.eraseIdx j)).trans ((ih j hj).cons x)

theorem length_stateResize (s : AdvState) (n : ℕ) (h : s.rho.length ≤ n) :
    (stateResize s n).rho.length = n := by
  simp [stateResize]
  omega

theorem length_eraseIdx_lt (l : List ℕ) (i : ℕ) (hi : i < l.length) :
    (l.eraseIdx i).length = l.length - 1 := by
  induction l generalizing i with
  | nil => simp at hi
  | cons x xs ih =>
    cases i with
    | zero => simp [List.eraseIdx]
    | succ j =>
      have hj : j < xs.length := by simpa using hi
      simp only [List.eraseIdx_cons_succ, List.length_cons, ih j hj]
      omega

theorem allocInv_init (dpe k : ℕ) (hdpe : 0 < dpe) (hk : 0 < k) :
    AllocInv dpe (initState (k * dpe)) [] := by
  unfold AllocInv initState
  refine ⟨by simp, by simp, ?_, by simpa using dvd_mul_left dpe k, by simp⟩
  simpa using Nat.mul_pos hk hdpe

theorem allocInv_alloc (dpe : ℕ) (s : AdvState) (live : List ℕ) (hdpe : 0 < dpe)
    (h : AllocInv dpe s live) :
    AllocInv dpe (allocate_element dpe s).1
      (live ++ [(allocate_element dpe s).2 / dpe]) := by
  obtain ⟨a, fl, rho⟩ := s
  obtain ⟨hperm, hlen, hpos, hdvd, hbound⟩ := h
  simp only at hperm hlen hpos hdvd hbound
  cases fl with
  | cons idx rest =>
    show AllocInv dpe ⟨a + 1, rest, rho⟩ (live ++ [idx * dpe / dpe])
    rw [Nat.mul_div_cancel idx hdpe]
    refine ⟨?_, by simp [hlen], hpos, hdvd, ?_⟩
    · have hshape : (live ++ [idx]) ++ rest = live ++ (idx :: rest) := by simp
      have hcount : a + 1 + rest.length = a + (idx :: rest).length := by
        simp only [List.length_cons]
        omega
      show ((live ++ [idx]) ++ rest).Perm (List.range (a + 1 + rest.length))
      rw [hshape, hcount]
      exact hperm
    · simp only [List.length_cons] at hbound
      simp only [List.length]
      omega
  | nil =>
    simp only [List.append_nil, List.length_nil, Nat.add_zero] at hperm hbound
    obtain ⟨m, hm⟩ := hdvd
    have hm1 : 1 ≤ m := by
      rcases Nat.eq_zero_or_pos m with h0 | h1
      · rw [h0, Nat.mul_zero] at hm
        omega
      · exact h1
    have hdiv : rho.length / dpe = m := by
      rw [hm]
      exact Nat.mul_div_cancel_left m hdpe
    have hperm1 : (live ++ [a]).Perm (List.range (a + 1)) := by
      rw [List.range_succ]
      exact hperm.append_right [a]
    by_cases hfull : a = rho.length / dpe
    · -- the backing array is full: it is doubled first
      have hred : allocate_element dpe ⟨a, [], rho⟩ =
          (⟨a + 1, [], rho.take (2 * rho.length) ++
              List.replicate (2 * rho.length - rho.length) 0⟩, a * dpe) := by
        simp [allocate_element, hfull, stateResize]
      rw [hred]
      rw [Nat.mul_div_cancel a hdpe]
      have hlen2 : (rho.take (2 * rho.length) ++
          List.replicate (2 * rho.length - rho.length) 0).length = 2 * rho.length := by
        simp
        omega
      refine ⟨?_, by simp [hlen], ?_, ?_, ?_⟩
      · simpa using hperm1
      · rw [hlen2]
        omega
      · rw [hlen2, hm]
        exact ⟨2 * m, by ring⟩
      · have hdiv2 : 2 * rho.length / dpe = 2 * m := by
          rw [hm, show 2 * (dpe * m) = dpe * (2 * m) by ring]
          exact Nat.mul_div_cancel_left _ hdpe
        rw [hlen2, hdiv2]
        simp only [List.length_nil]
        rw [hfull, hdiv] at *
        omega
    · have hred : allocate_element dpe ⟨a, [], rho⟩ = (⟨a + 1, [], rho⟩, a * dpe) := by
        simp [allocate_element, hfull]
      rw [hred]
      rw [Nat.mul_div_cancel a hdpe]
      refine ⟨by simpa using hperm1, by simp [hlen], hpos, ⟨m, hm⟩, ?_⟩
      simp only [List.length_nil]
      have hlt : a < rho.length / dpe := Nat.lt_of_le_of_ne hbound hfull
      omega

theorem allocInv_dealloc (dpe : ℕ) (s : AdvState) (live : List ℕ) (i : ℕ)
    (hdpe : 0 < dpe) (h : AllocInv dpe s live) (hi : i < live.length) :
    ∃ s1, deallocate_element dpe s (live.getD i 0 * dpe) = .ok s1 ∧
      AllocInv dpe s1 (live.eraseIdx i) ∧
      s1.activeElements + s1.freelist.length ≤
        s.activeElements + s.freelist.length := by
  obtain ⟨a, fl, rho⟩ := s
  obtain ⟨hperm, hlen, hpos, hdvd, hbound⟩ := h
  simp only at hperm hlen hpos hdvd hbound
  have halign : live.getD i 0 * dpe % dpe = 0 := Nat.mul_mod_left _ _
  set el := live.getD i 0 with hel
  have hkey : (el :: (live.eraseIdx i ++ fl)).Perm (List.range (a + fl.length)) := by
    have h1 : (el :: live.eraseIdx i).Perm live := getD_cons_eraseIdx_perm live i hi
    have h2 : el :: (live.eraseIdx i ++ fl) = (el :: live.eraseIdx i) ++ fl := rfl
    rw [h2]
    exact (h1.append_right _).trans hperm
  have hN1 : 1 ≤ a := by omega
  have hred : deallocate_element dpe ⟨a, fl, rho⟩ (el * dpe) =
      .ok ⟨a - 1, if el * dpe / dpe ≠ a - 1 + fl.length then el * dpe / dpe :: fl else fl,
        rho⟩ := by
    unfold deallocate_element
    rw [if_neg (by simp [halign])]
  rw [hred, Nat.mul_div_cancel el hdpe]
  refine ⟨_, rfl, ?_, ?_⟩
  · by_cases hlast : el = a - 1 + fl.length
    · rw [if_neg (by simp [hlast])]
      refine ⟨?_, by rw [length_eraseIdx_lt live i hi, hlen], hpos, hdvd, ?_⟩
      · have hsplit : List.range (a + fl.length) =
            List.range (a - 1 + fl.length) ++ [a - 1 + fl.length] := by
          rw [← List.range_succ]
          congr 1
          omega
        rw [hsplit] at hkey
        have hkey2 : (el :: (live.eraseIdx i ++ fl)).Perm
            ((a - 1 + fl.length) :: List.range (a - 1 + fl.length)) :=
          hkey.trans (List.perm_append_singleton _ _)
        rw [hlast] at hkey2
        exact hkey2.cons_inv
      · simp only
        omega
    · rw [if_pos (by simp [hlast])]
      refine ⟨?_, by rw [length_eraseIdx_lt live i hi, hlen], hpos, hdvd, ?_⟩
      · have hmid : (live.eraseIdx i ++ el :: fl).Perm
            (el :: (live.eraseIdx i ++ fl)) := List.perm_middle
        have hcount : a - 1 + (el :: fl).length = a + fl.length := by
          simp only [List.length_cons]
          omega
        rw [hcount]
        exact hmid.trans hkey
      · simp only [List.length_cons]
        omega
  · by_cases hlast : el = a - 1 + fl.length
    · rw [if_neg (by simp [hlast])]
      simp only
      omega
    · rw [if_pos (by simp [hlast])]
      simp only [List.length_cons]
      omega

theorem allocInv_runOps (dpe : ℕ) (hdpe : 0 < dpe) (ops : List AllocOp)
    (s : AdvState) (live : List ℕ) (h : AllocInv dpe s live) :
    AllocInv dpe (runOps dpe ops (s, live)).1 (runOps dpe ops (s, live)).2 := by
  induction ops generalizing s live with
  | nil => exact h
  | cons op rest ih =>
    cases op with
    | alloc =>
      show AllocInv dpe (runOps dpe rest _).1 (runOps dpe rest _).2
      exact ih _ _ (allocInv_alloc dpe s live hdpe h)
    | dealloc i =>
      by_cases hi : i < live.length
      · obtain ⟨s1, hok, h1, _⟩ := allocInv_dealloc dpe s live i hdpe h hi
        simp only [runOps, if_pos hi, hok]
        exact ih _ _ h1
      · simp only [runOps, if_neg hi]
        exact ih _ _ h

theorem runOps_deallocOnly (dpe : ℕ) (hdpe : 0 < dpe) (ops : List AllocOp)
    (s : AdvState) (live : List ℕ) (h : AllocInv dpe s live) (hops : DeallocOnly ops) :
    AllocInv dpe (runOps dpe ops (s, live)).1 (runOps dpe ops (s, live)).2 ∧
      (runOps dpe ops (s, live)).1.activeElements +
          (runOps dpe ops (s, live)).1.freelist.length ≤
        s.activeElements + s.freelist.length := by
  induction ops generalizing s live with
  | nil => exact ⟨h, le_refl _⟩
  | cons op rest ih =>
    obtain ⟨i, rfl⟩ := hops op (List.mem_cons_self op rest)
    have hops1 : DeallocOnly rest := fun o ho => hops o (List.mem_cons_of_mem _ ho)
    by_cases hi : i < live.length
    · obtain ⟨s1, hok, h1, hle⟩ := allocInv_dealloc dpe s live i hdpe h hi
      simp only [runOps, if_pos hi, hok]
      obtain ⟨ha, hb⟩ := ih s1 (live.eraseIdx i) h1 hops1
      exact ⟨ha, hb.trans hle⟩
    · simp only [runOps, if_neg hi]
      exact ih s live h hops1

theorem allocate_element_shape (dpe : ℕ) (s : AdvState) :
    (allocate_element dpe s).1.freelist.length = s.freelist.length - 1 ∧
      (allocate_element dpe s).1.activeElements = s.activeElements + 1 := by
  obtain ⟨a, fl, rho⟩ := s
  cases fl with
  | cons idx rest => exact ⟨rfl, rfl⟩
  | nil =>
    by_cases hfull : a = rho.length / dpe
    · simp [allocate_element, hfull, stateResize]
    · simp [allocate_element, hfull]

theorem runOps_allocN (dpe n : ℕ) (s : AdvState) (live : List ℕ) :
    (runOps dpe (List.replicate n .alloc) (s, live)).1.freelist.length =
        s.freelist.length - n ∧
      (runOps dpe (List.replicate n .alloc) (s, live)).1.activeElements =
        s.activeElements + n ∧
      (runOps dpe (List.replicate n .alloc) (s, live)).2.length = live.length + n := by
  induction n generalizing s live with
  | zero => simp [runOps]
  | succ m ih =>
    have hrep : List.replicate (m + 1) AllocOp.alloc =
        AllocOp.alloc :: List.replicate m AllocOp.alloc := rfl
    have hstep : runOps dpe (AllocOp.alloc :: List.replicate m AllocOp.alloc) (s, live) =
        runOps dpe (List.replicate m AllocOp.alloc)
          ((allocate_element dpe s).1, live ++ [(allocate_element dpe s).2 / dpe]) := rfl
    rw [hrep, hstep]
    obtain ⟨hfl, hact⟩ := allocate_element_shape dpe s
    obtain ⟨ha, hb, hc⟩ := ih (allocate_element dpe s).1
      (live ++ [(allocate_element dpe s).2 / dpe])
    refine ⟨?_, ?_, ?_⟩
    · rw [ha, hfl]
      omega
    · rw [hb, hact]
      omega
    · rw [hc]
      simp
      omega

theorem allocN_perm (dpe : ℕ) (hdpe : 0 < dpe) (s : AdvState) (n : ℕ)
    (h : AllocInv dpe s []) (hfl : s.freelist.length ≤ n) :
    ((runOps dpe (List.replicate n .alloc) (s, [])).2).Perm (List.range n) := by
  have hinv := allocInv_runOps dpe hdpe (List.replicate n .alloc) s [] h
  obtain ⟨hflen, hactn, hliven⟩ := runOps_allocN dpe n s []
  have hact0 : s.activeElements = 0 := by
    have := h.2.1
    simpa using this
  have hfl0 : (runOps dpe (List.replicate n .alloc) (s, [])).1.freelist.length = 0 := by
    omega
  have hfl0' : (runOps dpe (List.replicate n .alloc) (s, [])).1.freelist = [] :=
    List.length_eq_zero.mp hfl0
  obtain ⟨hperm, hlen, _, _, _⟩ := hinv
  rw [hfl0'] at hperm
  simp only [List.append_nil, List.length_nil, Nat.add_zero] at hperm
  rw [hactn, hact0, Nat.zero_add] at hperm
  exact hperm

/-- C4, amended: from a backing array of positive size divisible by
`dofs_per_element`, after any sequence of allocations and live-slab
deallocations every live slab offset is a distinct multiple of
`dofs_per_element` and the in-use region fits the array; and when the
freelist is empty at the start of a deallocate-everything phase, reallocating
the same count yields exactly a permutation of the offsets
`{0, dofs, …, (n−1)·dofs}`.  (The unamended claim fails both for a
zero-capacity initial array and when the freelist is nonempty before the
deallocate-all phase; see the counterexample.) -/
theorem C4_allocator_amended (dpe k : ℕ) (hdpe : 0 < dpe) (hk : 0 < k) :
    (∀ ops : List AllocOp,
      (((runOps dpe ops (initState (k * dpe), [])).2.map (fun i => i * dpe)).Nodup ∧
       (∀ off ∈ (runOps dpe ops (initState (k * dpe), [])).2.map (fun i => i * dpe),
         dpe ∣ off) ∧
       (runOps dpe ops (initState (k * dpe), [])).1.activeElements +
           (runOps dpe ops (initState (k * dpe), [])).1.freelist.length ≤
         (runOps dpe ops (initState (k * dpe), [])).1.rho.length / dpe)) ∧
    (∀ ops ds : List AllocOp, DeallocOnly ds →
      (runOps dpe ops (initState (k * dpe), [])).1.freelist = [] →
      (runOps dpe ds (runOps dpe ops (initState (k * dpe), []))).2 = [] →
      ((((runOps dpe (List.replicate (runOps dpe ops (initState (k * dpe), [])).2.length
            AllocOp.alloc)
          ((runOps dpe ds (runOps dpe ops (initState (k * dpe), []))).1, [])).2).map
            (fun i => i * dpe)).Perm
        ((List.range (runOps dpe ops (initState (k * dpe), [])).2.length).map
          (fun i => i * dpe)))) := by
  have hinit := allocInv_init dpe k hdpe hk
  constructor
  · intro ops
    have hinv := allocInv_runOps dpe hdpe ops _ _ hinit
    obtain ⟨hperm, hlen, hpos, hdvd, hbound⟩ := hinv
    refine ⟨?_, ?_, hbound⟩
    · have hnd : ((runOps dpe ops (initState (k * dpe), [])).2 ++
          (runOps dpe ops (initState (k * dpe), [])).1.freelist).Nodup :=
        hperm.symm.nodup (List.nodup_range _)
      have hndl := hnd.of_append_left
      exact hndl.map (fun a b hab => Nat.eq_of_mul_eq_mul_right hdpe hab)
    · intro off hoff
      obtain ⟨i, _, rfl⟩ := List.mem_map.mp hoff
      exact dvd_mul_left dpe i
  · intro ops ds hds hfl0 hlive1
    have hinv0 := allocInv_runOps dpe hdpe ops _ _ hinit
    obtain ⟨hinv1, hle⟩ := runOps_deallocOnly dpe hdpe ds _ _ hinv0 hds
    have hlive1b : (runOps dpe ds ((runOps dpe ops (initState (k * dpe), [])).1,
        (runOps dpe ops (initState (k * dpe), [])).2)).2 = [] := hlive1
    rw [hlive1b] at hinv1
    have hn : (runOps dpe ds ((runOps dpe ops (initState (k * dpe), [])).1,
        (runOps dpe ops (initState (k * dpe), [])).2)).1.freelist.length ≤
        (runOps dpe ops (initState (k * dpe), [])).2.length := by
      have hact1 : (runOps dpe ds ((runOps dpe ops (initState (k * dpe), [])).1,
          (runOps dpe ops (initState (k * dpe), [])).2)).1.activeElements = 0 := by
        simpa using hinv1.2.1
      have hact0 : (runOps dpe ops (initState (k * dpe), [])).1.activeElements =
          (runOps dpe ops (initState (k * dpe), [])).2.length := hinv0.2.1
      rw [hfl0] at hle
      simp only [List.length_nil] at hle
      omega
    exact (allocN_perm dpe hdpe _ _ hinv1 hn).map _

/-- C4, counterexample to the claim as stated: (i) starting from the
default-constructed state (empty backing array), one allocation already
exceeds `rho.size()/dofs_per_element`; (ii) with a nonempty freelist,
deallocating the single live slab and reallocating one slab yields the
offset set `{1·dofs}`, not a permutation of `{0}` (run:
alloc, alloc, alloc, dealloc slab 0, dealloc slab 1, dealloc slab 2,
alloc — the final live offset list is `[1]`). -/
theorem C4_allocator_counterexample :
    ((runOps 1 [.alloc] ((⟨0, [], []⟩ : AdvState), [])).1.rho.length / 1 <
      (runOps 1 [.alloc] ((⟨0, [], []⟩ : AdvState), [])).1.activeElements +
        (runOps 1 [.alloc] ((⟨0, [], []⟩ : AdvState), [])).1.freelist.length) ∧
    (runOps 1 [.alloc, .alloc, .alloc, .dealloc 0, .dealloc 0, .dealloc 0, .alloc]
        (initState 4, [])).2.map (fun i => i * 1) = [1] ∧
    ¬ (([1] : List ℕ).Perm ((List.range 1).map (fun i => i * 1))) := by
  refine ⟨by decide, by decide, by decide⟩

/-- C4 witness: distinctness after two allocations, and the round-trip
permutation for one slab allocated, deallocated and reallocated. -/
theorem C4_allocator_amended_witness :
    (((runOps 1 [AllocOp.alloc, AllocOp.alloc] (initState 1, [])).2.map
        (fun i => i * 1)).Nodup) ∧
    ((runOps 1 (List.replicate
          (runOps 1 [AllocOp.alloc] (initState 1, [])).2.length AllocOp.alloc)
        ((runOps 1 [AllocOp.dealloc 0]
          (runOps 1 [AllocOp.alloc] (initState 1, []))).1, [])).2.map
          (fun i => i * 1)).Perm
      ((List.range (runOps 1 [AllocOp.alloc] (initState 1, [])).2.length).map
        (fun i => i * 1)) := by
  constructor
  · exact ((C4_allocator_amended 1 1 one_pos one_pos).1 [AllocOp.alloc, AllocOp.alloc]).1
  · exact (C4_allocator_amended 1 1 one_pos one_pos).2 [AllocOp.alloc] [AllocOp.dealloc 0]
      (fun op hop => by
        simp at hop
        exact ⟨0, hop⟩)
      (by decide) (by decide)

-- C3: the upkeep loop skips every other element --------------------------

/-- C3: on a two-element patch (first element: `min_life = 0`, zero charge;
second element: `min_life = 3`), one upkeep pass of the source retires the
first element but never visits the second — its `min_life` stays `3` instead
of being decremented to `2` — because the loop increments `i_el` both in the
`for` update and in the `else` branch.  The spec-mandated pass (visit every
element once, decrement, retire the eligible ones) leaves `[⟨1, [], 1, 2⟩]`
instead. -/
theorem C3_upkeep_skips_second_element :
    perform_upkeep_particle ⟨1, 1, [[1]], [[1]], [], [[1]], [], 1, 1, 1, 1, 1⟩
        ⟨fun _ _ => none, [], fun _ => 1, fun _ => [[1]]⟩ 1
        [⟨0, [], 0, 0⟩, ⟨1, [], 1, 3⟩] ⟨2, [], [0, 0]⟩ =
      .ok ([⟨1, [], 1, 3⟩], ⟨1, [0], [0, 0]⟩) ∧
    upkeepSpecPass ⟨1, 1, [[1]], [[1]], [], [[1]], [], 1, 1, 1, 1, 1⟩
        ⟨fun _ _ => none, [], fun _ => 1, fun _ => [[1]]⟩ 1
        [⟨0, [], 0, 0⟩, ⟨1, [], 1, 3⟩] ⟨2, [], [0, 0]⟩ =
      [⟨1, [], 1, 2⟩] := by
  constructor
  · norm_num [perform_upkeep_particle, upkeepPass, element_l1, integralWeights, dotQ,
      slab, retireStep, killConnections, deallocate_element, List.eraseIdx]
  · norm_num [upkeepSpecPass, element_l1, integralWeights, dotQ, slab, List.filter]

-- C9: missing opposite element of an active connection -----------------------

/-- C9: a face whose connection entry is active but names an element absent
from the patch makes `calculate_fluxes` read `opp_el->m_start_index` through
a null pointer (modelled as the fatal `nullDeref` outcome); the source's own
`opposite element … not found` diagnostic, which sits below that read, is not
what the operation produces. -/
theorem C9_null_deref_before_check :
    processFace ⟨1, 1, [[1]], [[1]], [], [[1]], [], 1, 1, 1, 1, 1⟩
        ⟨fun e _ => if e = 0 then some ⟨⟨0, 1, [1], [0]⟩, ⟨1, 1, [-1], [0]⟩⟩ else none,
          [], fun _ => 1, fun _ => [[1]]⟩
        [0] 1 ⟨1, [⟨0, [7], 0, 0⟩]⟩ ⟨1, [], [0]⟩ [0] 0 0 =
      .error .nullDeref ∧
    (FluxError.nullDeref : FluxError) ≠ FluxError.oppositeNotFound := by
  constructor
  · norm_num [processFace, findElement, INVALID_ELEMENT, activationFires,
      maxFaceDensity, dotQ, int_coeff, ext_coeff, List.find?]
  · decide

-- C7: zero velocities give zero fluxes and zero local divergence ------------

theorem getD_zero_of_all_zero (v : List ℚ) (hv : ∀ x ∈ v, x = 0) (g : ℕ) :
    v.getD g 0 = 0 := by
  rw [List.getD_eq_getElem?_getD]
  cases h : v[g]? with
  | none => rfl
  | some a =>
    have ha : a ∈ v := List.getElem?_mem h
    simp [hv a ha]

theorem dotQ_zero_left (v b : List ℚ) (hv : ∀ x ∈ v, x = 0) : dotQ v b = 0 := by
  induction v generalizing b with
  | nil => simp [dotQ]
  | cons x xs ih =>
    cases b with
    | nil => simp [dotQ]
    | cons y ys =>
      simp only [dotQ, List.zipWith_cons_cons, List.sum_cons]
      rw [hv x (by simp)]
      have := ih ys (fun z hz => hv z (by simp [hz]))
      simp only [dotQ] at this
      simp [this]

theorem velSlice_zero (vdim pn : ℕ) (velocities : List ℚ)
    (hv : ∀ x ∈ velocities, x = 0) : ∀ x ∈ velSlice vdim pn velocities, x = 0 := by
  intro x hx
  unfold velSlice at hx
  exact hv x (List.mem_of_mem_drop (List.mem_of_mem_take hx))

theorem int_coeff_zero (fJ alpha : ℚ) : int_coeff fJ 0 alpha = 0 := by
  simp [int_coeff]

theorem ext_coeff_zero (fJ alpha : ℚ) : ext_coeff fJ 0 alpha = 0 := by
  simp [ext_coeff]

theorem foldl_fixed_acc {α β : Type} (l : List α) (acc : β) :
    l.foldl (fun a _ => a) acc = acc := by
  induction l generalizing acc with
  | nil => rfl
  | cons x xs ih => exact ih acc

theorem set_getD_self (l : List ℚ) (i : ℕ) : l.set i (l.getD i 0) = l := by
  induction l generalizing i with
  | nil => simp
  | cons x xs ih =>
    cases i with
    | zero => simp
    | succ j =>
      show x :: xs.set j (xs.getD j 0) = x :: xs
      rw [ih j]

theorem accumActive_zero_coeff (cfg : Config) (rho fluxes : List ℚ) (tb ob : ℕ)
    (il oil : List ℕ) :
    accumActive cfg rho fluxes tb ob il oil 0 0 = fluxes := by
  unfold accumActive
  have hinner : ∀ (i : ℕ) (l : List ℕ) (a : ℚ),
      l.foldl (fun acc j => acc + rho.getD (tb + il.getD j 0) 0 * 0 * faceMassEntry cfg i j
        + rho.getD (ob + oil.getD j 0) 0 * 0 * faceMassEntry cfg i j) a = a := by
    intro i l
    induction l with
    | nil => intro a; rfl
    | cons x xs ih =>
      intro a
      simp only [List.foldl_cons]
      have hstep : a + rho.getD (tb + il.getD x 0) 0 * 0 * faceMassEntry cfg i x
          + rho.getD (ob + oil.getD x 0) 0 * 0 * faceMassEntry cfg i x = a := by ring
      rw [hstep]
      exact ih a
  simp only [hinner, add_zero]
  have houter : ∀ (l : List ℕ) (fl : List ℚ),
      l.foldl (fun fl2 i => updateNth fl2 (tb + il.getD i 0) (fun x => x)) fl = fl := by
    intro l
    induction l with
    | nil => intro fl; rfl
    | cons x xs ih =>
      intro fl
      simp only [List.foldl_cons]
      have hstep : updateNth fl (tb + il.getD x 0) (fun x => x) = fl := by
        unfold updateNth
        exact set_getD_self fl _
      rw [hstep]
      exact ih fl
  exact houter _ _

theorem accumInflow_zero_coeff (cfg : Config) (rho fluxes : List ℚ) (tb : ℕ)
    (il : List ℕ) :
    accumInflow cfg rho fluxes tb il 0 = fluxes := by
  unfold accumInflow
  have hinner : ∀ (i : ℕ) (l : List ℕ) (a : ℚ),
      l.foldl (fun acc j => acc + rho.getD (tb + il.getD j 0) 0 * 0 * faceMassEntry cfg i j)
        a = a := by
    intro i l
    induction l with
    | nil => intro a; rfl
    | cons x xs ih =>
      intro a
      simp only [List.foldl_cons]
      have hstep : a + rho.getD (tb + il.getD x 0) 0 * 0 * faceMassEntry cfg i x = a := by
        ring
      rw [hstep]
      exact ih a
  simp only [hinner, add_zero]
  have houter : ∀ (l : List ℕ) (fl : List ℚ),
      l.foldl (fun fl2 i => updateNth fl2 (tb + il.getD i 0) (fun x => x)) fl = fl := by
    intro l
    induction l with
    | nil => intro fl; rfl
    | cons x xs ih =>
      intro fl
      simp only [List.foldl_cons]
      have hstep : updateNth fl (tb + il.getD x 0) (fun x => x) = fl := by
        unfold updateNth
        exact set_getD_self fl _
      rw [hstep]
      exact ih fl
  exact houter _ _

theorem processFace_zero (cfg : Config) (md : MeshData) (v : List ℚ) (shapePeak : ℚ)
    (p : Particle) (st : AdvState) (fluxes : List ℚ) (i_el fn : ℕ)
    (hv : ∀ x ∈ v, x = 0)
    (hok : faceOK md p.elements (p.elements.getD i_el ⟨0, [], 0, 0⟩) fn = true) :
    processFace cfg md v shapePeak p st fluxes i_el fn = .ok (p, st, fluxes) := by
  have hfire : ∀ (b a : Bool) (m θ pk : ℚ) (w : List ℚ),
      activationFires b a (dotQ v w) m θ pk = false := by
    intro b a m θ pk w
    unfold activationFires
    rw [dotQ_zero_left v w hv]
    simp
  have hint : ∀ (fJ : ℚ) (w : List ℚ), int_coeff fJ (dotQ v w) cfg.upwindAlpha = 0 :=
    fun fJ w => by rw [dotQ_zero_left v w hv]; exact int_coeff_zero _ _
  have hext : ∀ (fJ : ℚ) (w : List ℚ), ext_coeff fJ (dotQ v w) cfg.upwindAlpha = 0 :=
    fun fJ w => by rw [dotQ_zero_left v w hv]; exact ext_coeff_zero _ _
  have hinf : ∀ (w : List ℚ), decide (dotQ v w ≤ 0) = true :=
    fun w => by rw [dotQ_zero_left v w hv]; simp
  unfold faceOK at hok
  unfold processFace
  cases hlk : md.pairLookup (p.elements.getD i_el ⟨0, [], 0, 0⟩).id fn with
  | none =>
    rw [hlk] at hok
    exact absurd hok (by simp)
  | some fp =>
    rw [hlk] at hok
    simp only at hok
    simp only
    cases hfb : ((p.elements.getD i_el ⟨0, [], 0, 0⟩).id != fp.loc.elementId) <;>
      cases hbd : (fp.opp.elementId == INVALID_ELEMENT) <;>
        cases hac : ((p.elements.getD i_el ⟨0, [], 0, 0⟩).conns.getD fn INVALID_ELEMENT
            != INVALID_ELEMENT) <;>
          rw [hfb, hbd, hac] at hok <;>
          (try simp only [Bool.and_false, Bool.and_true, Bool.false_and, Bool.true_and,
            Bool.not_false, Bool.not_true, Bool.true_or, Bool.false_or, Bool.or_true,
            Bool.and_self, Bool.not_eq_true] at hok) <;>
          simp only [hlk] <;>
          simp [hfb, hbd, hac, hfire, hint, hext, hinf, accumActive_zero_coeff,
            accumInflow_zero_coeff, bne]
    all_goals simp_all [bne_eq_false_iff_eq]
    all_goals
      (obtain ⟨oppEl, hopp⟩ :=
        Option.isSome_iff_exists.mp (by first | exact hok | exact hok.2); simp [hopp])

theorem getD_mem_of_lt (l : List Elem) (i : ℕ) (d : Elem) (h : i < l.length) :
    l.getD i d ∈ l := by
  rw [List.getD_eq_getElem?_getD, List.getElem?_eq_getElem h]
  exact List.getElem_mem h

theorem faceLoop_zero (cfg : Config) (md : MeshData) (v : List ℚ) (shapePeak : ℚ)
    (i_el : ℕ) (p : Particle) (st : AdvState) (fluxes : List ℚ) (remaining fn : ℕ)
    (hv : ∀ x ∈ v, x = 0)
    (hok : ∀ f, f < fn + remaining →
      faceOK md p.elements (p.elements.getD i_el ⟨0, [], 0, 0⟩) f = true) :
    faceLoop cfg md v shapePeak i_el remaining fn p st fluxes = .ok (p, st, fluxes) := by
  induction remaining generalizing fn with
  | zero => rfl
  | succ r ih =>
    simp only [faceLoop]
    rw [processFace_zero cfg md v shapePeak p st fluxes i_el fn hv
      (hok fn (by omega))]
    exact ih (fn + 1) (fun f hf => hok f (by omega))

theorem elementLoop_zero (cfg : Config) (md : MeshData) (v : List ℚ) (shapePeak : ℚ)
    (p : Particle) (st : AdvState) (fluxes : List ℚ) (fuel i_el : ℕ)
    (hv : ∀ x ∈ v, x = 0)
    (hok : ∀ el ∈ p.elements, ∀ f < cfg.facesPerElement, faceOK md p.elements el f = true)
    (hfuel : p.elements.length ≤ fuel + i_el) :
    elementLoop cfg md v shapePeak fuel i_el p st fluxes = .ok (p, st, fluxes) := by
  induction fuel generalizing i_el with
  | zero =>
    simp only [elementLoop]
    rw [if_neg (by omega : ¬ i_el < p.elements.length)]
  | succ f ih =>
    simp only [elementLoop]
    by_cases hi : i_el < p.elements.length
    · rw [if_pos hi, faceLoop_zero cfg md v shapePeak i_el p st fluxes
        cfg.facesPerElement 0 hv
        (fun ff hf => hok _ (getD_mem_of_lt _ _ _ hi) ff (by omega))]
      exact ih (i_el + 1) (by omega)
    · rw [if_neg hi]

theorem particleLoop_zero (cfg : Config) (md : MeshData) (velocities charges : List ℚ)
    (fuel : ℕ) (particles : List Particle) (pn : ℕ) (st : AdvState) (fluxes : List ℚ)
    (hv : ∀ x ∈ velocities, x = 0)
    (hok : ∀ p ∈ particles, PatchFacesOK cfg md p)
    (hfuel : ∀ p ∈ particles, p.elements.length ≤ fuel) :
    particleLoop cfg md velocities charges fuel pn particles st fluxes =
      .ok (particles, st, fluxes) := by
  induction particles generalizing pn with
  | nil => rfl
  | cons p rest ih =>
    simp only [particleLoop]
    rw [elementLoop_zero cfg md _ _ p st fluxes fuel 0
      (velSlice_zero cfg.vdim pn velocities hv)
      (hok p (by simp)) (by simpa using hfuel p (by simp))]
    show (match particleLoop cfg md velocities charges fuel (pn + 1) rest st fluxes with
      | Except.error e => Except.error e
      | Except.ok (rest1, st2, fl2) => Except.ok (p :: rest1, st2, fl2)) =
        Except.ok (p :: rest, st, fluxes)
    rw [ih (pn + 1) (fun q hq => hok q (by simp [hq])) (fun q hq => hfuel q (by simp [hq]))]

theorem divCoeff_zero (v : List ℚ) (hv : ∀ x ∈ v, x = 0) (invMap : List (List ℚ))
    (locAxis dim : ℕ) : divCoeff v invMap locAxis dim = 0 := by
  unfold divCoeff
  have key : ∀ (l : List ℕ) (a : ℚ),
      l.foldl (fun acc g => acc + -(v.getD g 0) * ((invMap.getD locAxis []).getD g 0)) a
        = a := by
    intro l
    induction l with
    | nil => intro a; rfl
    | cons x xs ih =>
      intro a
      simp only [List.foldl_cons]
      have hstep : a + -(v.getD x 0) * ((invMap.getD locAxis []).getD x 0) = a := by
        rw [getD_zero_of_all_zero v hv x]
        ring
      rw [hstep]
      exact ih a
  exact key _ 0

theorem addScaledAt_zero (v : List ℚ) (s : ℕ) (w : List ℚ) :
    addScaledAt v s 0 w = v := by
  unfold addScaledAt
  have hz : ∀ (a b : List ℚ), List.zipWith (fun x y => x + 0 * y) a b = a.take b.length := by
    intro a
    induction a with
    | nil => intro b; simp
    | cons x xs ih =>
      intro b
      cases b with
      | nil => simp
      | cons y ys =>
        show (x + 0 * y) :: List.zipWith (fun x y => x + 0 * y) xs ys =
          x :: xs.take ys.length
        have hx : x + 0 * y = x := by ring
        rw [hx, ih ys]
  rw [hz]
  have h1 : (v.drop s).take w.length ++ v.drop (s + w.length) = v.drop s := by
    have h2 : v.drop (s + w.length) = (v.drop s).drop w.length := by
      rw [List.drop_drop]
    rw [h2, List.take_append_drop]
  rw [List.append_assoc, h1, List.take_append_drop]

theorem divAccumElement_zero (cfg : Config) (md : MeshData) (v : List ℚ)
    (hv : ∀ x ∈ v, x = 0) (dofs : ℕ) (rst acc : List ℚ) (el : Elem) :
    divAccumElement cfg md v dofs rst acc el = acc := by
  unfold divAccumElement
  have key : ∀ (l : List ℕ) (a : List ℚ),
      l.foldl (fun acc2 locAxis => addScaledAt acc2 el.startIndex
        (divCoeff v (md.inverseMap el.id) locAxis cfg.dimensionsMesh)
        (slab rst (locAxis * dofs + el.startIndex) cfg.dofsPerElement)) a = a := by
    intro l
    induction l with
    | nil => intro a; rfl
    | cons x xs ih =>
      intro a
      simp only [List.foldl_cons]
      rw [divCoeff_zero v hv, addScaledAt_zero]
      exact ih a
  exact key _ _

theorem calculate_local_div_zero (cfg : Config) (md : MeshData)
    (particles : List Particle) (st : AdvState) (velocities : List ℚ)
    (hv : ∀ x ∈ velocities, x = 0) :
    calculate_local_div cfg md particles st velocities =
      List.replicate st.rho.length 0 := by
  unfold calculate_local_div
  have houter : ∀ (l : List (ℕ × Particle)) (acc : List ℚ),
      l.foldl (fun acc2 pnp => pnp.2.elements.foldl
        (divAccumElement cfg md (velSlice cfg.vdim pnp.1 velocities) st.rho.length
          (rstDerivs cfg st)) acc2) acc = acc := by
    intro l
    induction l with
    | nil => intro acc; rfl
    | cons x xs ih =>
      intro acc
      simp only [List.foldl_cons]
      have hin : ∀ (els : List Elem) (a : List ℚ),
          els.foldl (divAccumElement cfg md (velSlice cfg.vdim x.1 velocities)
            st.rho.length (rstDerivs cfg st)) a = a := by
        intro els
        induction els with
        | nil => intro a; rfl
        | cons e es ihe =>
          intro a
          simp only [List.foldl_cons]
          rw [divAccumElement_zero cfg md _ (velSlice_zero cfg.vdim x.1 velocities hv)]
          exact ihe a
      rw [hin]
      exact ih acc
  exact houter _ _

/-- C7: when the packed velocity vector is identically zero,
`calculate_fluxes` succeeds, activates nothing, leaves every patch and the
state untouched, and returns the all-zero flux vector; and
`calculate_local_div` returns the all-zero vector as well. -/
theorem C7_zero_velocity_zero_rhs (cfg : Config) (md : MeshData)
    (particles : List Particle) (charges : List ℚ) (st : AdvState)
    (velocities : List ℚ) (fuel : ℕ)
    (hθ : cfg.activationThreshold ≠ 0)
    (hv : ∀ x ∈ velocities, x = 0)
    (hok : ∀ p ∈ particles, PatchFacesOK cfg md p)
    (hfuel : ∀ p ∈ particles, p.elements.length ≤ fuel) :
    calculate_fluxes cfg md fuel particles charges st velocities =
      .ok (particles, st, List.replicate st.rho.length 0) ∧
    calculate_local_div cfg md particles st velocities =
      List.replicate st.rho.length 0 := by
  constructor
  · unfold calculate_fluxes
    rw [if_neg hθ]
    exact particleLoop_zero cfg md velocities charges fuel particles 0 st _ hv hok hfuel
  · exact calculate_local_div_zero cfg md particles st velocities hv

/-- C7 witness: a one-particle, one-element patch with interior face data and
zero velocity: the flux computation returns the patch and state unchanged
with a zero flux vector, and the local divergence is zero. -/
theorem C7_zero_velocity_zero_rhs_witness :
    calculate_fluxes ⟨1, 1, [[1]], [[1]], [], [[1]], [], 1, 1, 1, 1, 1⟩
        ⟨fun e _ => if e = 0 then some ⟨⟨0, 1, [1], [0]⟩, ⟨1, 1, [-1], [0]⟩⟩ else none,
          [[1], [0]], fun _ => 1, fun _ => [[1]]⟩ 1
        [⟨1, [⟨0, [INVALID_ELEMENT], 0, 0⟩]⟩] [1] ⟨1, [], [5]⟩ [0] =
      .ok ([⟨1, [⟨0, [INVALID_ELEMENT], 0, 0⟩]⟩], ⟨1, [], [5]⟩,
        List.replicate ([(5 : ℚ)] : List ℚ).length 0) ∧
    calculate_local_div ⟨1, 1, [[1]], [[1]], [], [[1]], [], 1, 1, 1, 1, 1⟩
        ⟨fun e _ => if e = 0 then some ⟨⟨0, 1, [1], [0]⟩, ⟨1, 1, [-1], [0]⟩⟩ else none,
          [[1], [0]], fun _ => 1, fun _ => [[1]]⟩
        [⟨1, [⟨0, [INVALID_ELEMENT], 0, 0⟩]⟩] ⟨1, [], [5]⟩ [0] =
      List.replicate ([(5 : ℚ)] : List ℚ).length 0 := by
  exact C7_zero_velocity_zero_rhs _ _ _ _ _ _ _ (by norm_num)
    (by intro x hx; simpa using hx)
    (by
      intro p hp
      simp only [List.mem_singleton] at hp
      subst hp
      intro el hel fn hfn
      interval_cases fn
      simp only [List.mem_singleton] at hel
      subst hel
      decide)
    (by
      intro p hp
      simp only [List.mem_singleton] at hp
      subst hp
      simp)

-- C10: read-only stages and the one mutating stage ---------------------------

theorem length_addScaledAt (v : List ℚ) (s : ℕ) (c : ℚ) (w : List ℚ) :
    (addScaledAt v s c w).length = v.length := by
  simp [addScaledAt]
  omega

theorem foldl_length_preserved {α : Type} (f : List ℚ → α → List ℚ)
    (hf : ∀ acc a, (f acc a).length = acc.length) (l : List α) :
    ∀ acc : List ℚ, (l.foldl f acc).length = acc.length := by
  induction l with
  | nil => intro acc; rfl
  | cons x xs ih =>
    intro acc
    simp only [List.foldl_cons]
    rw [ih (f acc x), hf acc x]

theorem length_divAccumElement (cfg : Config) (md : MeshData) (v : List ℚ)
    (dofs : ℕ) (rst acc : List ℚ) (el : Elem) :
    (divAccumElement cfg md v dofs rst acc el).length = acc.length := by
  unfold divAccumElement
  exact foldl_length_preserved _ (fun a ax => length_addScaledAt _ _ _ _) _ acc

theorem length_calculate_local_div (cfg : Config) (md : MeshData)
    (particles : List Particle) (st : AdvState) (velocities : List ℚ) :
    (calculate_local_div cfg md particles st velocities).length = st.rho.length := by
  unfold calculate_local_div
  rw [foldl_length_preserved _
    (fun acc pnp => foldl_length_preserved _
      (fun a e => length_divAccumElement cfg md _ _ _ a e) _ acc) _ _]
  simp

theorem length_scaleSlab_q (v : List ℚ) (s len : ℕ) (c : ℚ) :
    (scaleSlab v s len c).length = v.length := length_scaleSlab v s len c

theorem length_setSlab_of_le (v : List ℚ) (s : ℕ) (w : List ℚ)
    (h : s + w.length ≤ v.length) : (setSlab v s w).length = v.length := by
  simp [setSlab]
  omega

theorem length_batchMatVec (m : List (List ℚ)) (n dpe : ℕ) (v : List ℚ) :
    (batchMatVec m n dpe v).length = n * m.length := by
  unfold batchMatVec matVec
  induction n with
  | zero => simp
  | succ k ih =>
    rw [List.range_succ, List.flatMap_append, List.length_append, ih]
    simp [Nat.succ_mul]

theorem length_apply_elementwise_inverse_mass_matrix (cfg : Config) (md : MeshData)
    (particles : List Particle) (st : AdvState) (operand : List ℚ)
    (h : (st.activeElements + st.freelist.length) * cfg.inverseMassMatrix.length ≤
      st.rho.length) :
    (apply_elementwise_inverse_mass_matrix cfg md particles st operand).length =
      st.rho.length := by
  have hres := foldl_length_preserved
    (fun acc p => p.elements.foldl
      (fun acc2 el => scaleSlab acc2 el.startIndex cfg.dofsPerElement
        (1 / md.jacobian el.id)) acc)
    (fun acc p => foldl_length_preserved
      (fun acc2 el => scaleSlab acc2 el.startIndex cfg.dofsPerElement
        (1 / md.jacobian el.id))
      (fun (a : List ℚ) (e : Elem) =>
        length_scaleSlab a e.startIndex cfg.dofsPerElement (1 / md.jacobian e.id))
      p.elements acc)
    particles
  have hgoal : (apply_elementwise_inverse_mass_matrix cfg md particles st operand).length =
      (setSlab (List.replicate st.rho.length 0) 0
        (batchMatVec cfg.inverseMassMatrix (st.activeElements + st.freelist.length)
          cfg.dofsPerElement operand)).length := hres _
  rw [hgoal, length_setSlab_of_le]
  · simp
  · rw [length_batchMatVec]
    simpa using h

/-- C10: the local-divergence and inverse-mass stages are embedded as pure
functions of the advective state — mirroring their `const` bodies, which
write only into freshly allocated vectors — and each returns a new vector of
the full state-vector size; `calculate_fluxes`, by contrast, can genuinely
change the state (a concrete outflow face activates a neighbor, growing
`active_elements` from 1 to 2). -/
theorem C10_frame_effects (cfg : Config) (md : MeshData) (particles : List Particle)
    (st : AdvState) (velocities operand : List ℚ) :
    ((calculate_local_div cfg md particles st velocities).length = st.rho.length) ∧
    ((st.activeElements + st.freelist.length) * cfg.inverseMassMatrix.length ≤
        st.rho.length →
      (apply_elementwise_inverse_mass_matrix cfg md particles st operand).length =
        st.rho.length) ∧
    (∃ r, calculate_fluxes ⟨1, 1, [[1]], [[1]], [], [[1]], [], 1, 1, 1, 1, 1⟩
        ⟨fun e _ => if e ≤ 1 then some ⟨⟨0, 1, [1], [0]⟩, ⟨1, 1, [-1], [0]⟩⟩ else none,
          [[1], [0]], fun _ => 1, fun _ => [[1]]⟩ 3
        [⟨1, [⟨0, [INVALID_ELEMENT], 0, 0⟩]⟩] [1] ⟨1, [], [5]⟩ [1] = .ok r ∧
      r.2.1.activeElements ≠ (AdvState.mk 1 [] [5]).activeElements) := by
  refine ⟨length_calculate_local_div cfg md particles st velocities,
    length_apply_elementwise_inverse_mass_matrix cfg md particles st operand, ?_⟩
  refine ⟨([⟨1, [⟨0, [1], 0, 0⟩, ⟨1, [0], 1, 10⟩]⟩], ⟨2, [], [5, 0]⟩, [0, -5]), ?_, by decide⟩
  norm_num [calculate_fluxes, particleLoop, elementLoop, faceLoop, processFace,
    activateWire, wireFold, findElement, updateFirstWithId, allocate_element,
    stateResize, setSlab, facesOf, velSlice, accumActive, accumInflow, updateNth,
    maxFaceDensity, activationFires, int_coeff, ext_coeff, dotQ, slab, faceMassEntry,
    INVALID_ELEMENT, List.indexOf, List.findIdx, List.findIdx.go, List.find?,
    List.range_succ]

/-- C10 witness: the inverse-mass length statement instantiated on a one-slab
state. -/
theorem C10_frame_effects_witness :
    (apply_elementwise_inverse_mass_matrix
        ⟨1, 1, [[1]], [[1]], [], [[1]], [], 1, 1, 1, 1, 1⟩
        ⟨fun _ _ => none, [], fun _ => 1, fun _ => [[1]]⟩
        [] ⟨1, [], [2]⟩ [3]).length = ([(2 : ℚ)] : List ℚ).length := by
  exact (C10_frame_effects _ _ _ _ [] _).2.1 (by simp)

/-- C2 witness: one element, jacobian `1`, weights `[1,1]`, raw samples
`[1,3]` (total unscaled mass `4`), charge `2`: after construction the patch
integral is exactly `2`. -/
theorem C2_charge_renormalization_witness :
    patchIntegral ⟨1, 2, [[1, 0], [0, 1]], [[1, 0], [0, 1]], [], [[1]], [], 1, 1, 1, 1, 1⟩
        ⟨fun _ _ => none, [[]], fun _ => 1, fun _ => [[1]]⟩
        (add_advective_particle
          ⟨1, 2, [[1, 0], [0, 1]], [[1, 0], [0, 1]], [], [[1]], [], 1, 1, 1, 1, 1⟩
          ⟨fun _ _ => none, [[]], fun _ => 1, fun _ => [[1]]⟩
          ⟨0, [], [1, 3]⟩ [⟨0, [], 0, 0⟩] 1 2).1.rho
        (add_advective_particle
          ⟨1, 2, [[1, 0], [0, 1]], [[1, 0], [0, 1]], [], [[1]], [], 1, 1, 1, 1, 1⟩
          ⟨fun _ _ => none, [[]], fun _ => 1, fun _ => [[1]]⟩
          ⟨0, [], [1, 3]⟩ [⟨0, [], 0, 0⟩] 1 2).2.1.elements = 2 := by
  apply (C2_charge_renormalization _ _ _ _ _ _ (by simp) (by intro el hel; simp at hel; simp [hel])).1
  norm_num [patchIntegral, unscaledMasses, element_integral, integralWeights, dotQ, slab]

/-- C1, counterexample: at `face_jacobian = 1`, `n·v = 1` (outflow), `α = 1`
the source's interior coefficient is `0` while the claimed formula
`faceJacobian·(−n·v)·(α·[1 if outflow else 0] + (1−α)·0.5)` gives `-1`. -/
theorem C1_flux_coeff_counterexample :
    int_coeff 1 1 1 = 0 ∧ claimedIntCoeff 1 1 1 = -1 ∧
      int_coeff 1 1 1 ≠ claimedIntCoeff 1 1 1 := by
  refine ⟨?_, ?_, ?_⟩ <;> norm_num [int_coeff, claimedIntCoeff]

/-- C1, amended: the interior coefficient's upwind term carries
`[1 if inflow else 0]` (not outflow), i.e.
`int_coeff = faceJacobian·(−n·v)·(α·[1 if n·v ≤ 0 else 0] + (1−α)·0.5)`, and
the exterior coefficient is exactly its negation (equivalently: the claimed
exterior form, sign-negated with the same inflow indicator). -/
theorem C1_flux_coeff_amended (fJ nv alpha : ℚ) :
    int_coeff fJ nv alpha =
      fJ * (-nv) * (alpha * (if nv ≤ 0 then (1 : ℚ) else 0) + (1 - alpha) * (1/2)) ∧
    ext_coeff fJ nv alpha = - int_coeff fJ nv alpha := by
  unfold int_coeff ext_coeff
  constructor <;> (split_ifs <;> ring)

/-- C5: the dynamic-activation test fires exactly for a non-boundary,
not-yet-active, strictly-outward face whose trace maximum strictly exceeds
`activation_threshold × |shape peak|`; a trace maximum exactly equal to the
product never fires. -/
theorem C5_activation_threshold (b a : Bool) (nv maxD θ pk : ℚ) :
    (activationFires b a nv maxD θ pk = true ↔
      (b = false ∧ a = false ∧ 0 < nv ∧ θ * |pk| < maxD)) ∧
    (maxD = θ * |pk| → activationFires b a nv maxD θ pk = false) := by
  constructor
  · simp [activationFires, Bool.and_eq_true, not_le, and_assoc]
  · intro h
    subst h
    simp [activationFires]

/-- C5 witness: at the threshold boundary (`maxD = θ·|pk|`) activation does
not fire, while any strictly larger trace maximum does. -/
theorem C5_activation_threshold_witness :
    activationFires false false 1 (1 * |(2 : ℚ)|) 1 2 = false ∧
      activationFires false false 1 3 1 2 = true := by
  constructor
  · exact (C5_activation_threshold false false 1 (1 * |(2 : ℚ)|) 1 2).2 rfl
  · exact (C5_activation_threshold false false 1 3 1 2).1.mpr
      ⟨rfl, rfl, by norm_num, by norm_num⟩

/-- C8: with a filter matrix of nonzero dimensions the right-hand side is
applied through the batched filter multiply accumulated onto the stored
density; with zero rows or zero columns it is the plain element-wise
`rho += rhs`; and the filtered update genuinely differs from plain addition
(witnessed by a one-DOF state with filter `[[2]]`). -/
theorem C8_filtered_rhs_application (cfg : Config) (st : AdvState) (rhs : List ℚ) :
    (0 < cfg.filterMatrix.length ∧ 0 < (cfg.filterMatrix.headD []).length →
      apply_advective_particle_rhs cfg st rhs =
        { st with rho := (addScaledAt st.rho 0 1
            (batchMatVec cfg.filterMatrix (st.activeElements + st.freelist.length)
              cfg.dofsPerElement rhs)) }) ∧
    (¬ (0 < cfg.filterMatrix.length ∧ 0 < (cfg.filterMatrix.headD []).length) →
      apply_advective_particle_rhs cfg st rhs = { st with rho := addVec st.rho rhs }) ∧
    (∃ cfg0 st0 rhs0,
      0 < (Config.filterMatrix cfg0).length ∧
      apply_advective_particle_rhs cfg0 st0 rhs0 ≠
        { st0 with rho := addVec st0.rho rhs0 }) := by
  refine ⟨?_, ?_, ?_⟩
  · intro h
    unfold apply_advective_particle_rhs
    rw [if_pos h]
  · intro h
    unfold apply_advective_particle_rhs
    rw [if_neg h]
  · refine ⟨⟨1, 1, [[1]], [[1]], [[2]], [[1]], [], 1, 1, 1, 1, 1⟩,
      ⟨1, [], [1]⟩, [1], by norm_num, ?_⟩
    have h1 : apply_advective_particle_rhs
        ⟨1, 1, [[1]], [[1]], [[2]], [[1]], [], 1, 1, 1, 1, 1⟩ ⟨1, [], [1]⟩ [1] =
        (⟨1, [], [3]⟩ : AdvState) := by
      norm_num [apply_advective_particle_rhs, addScaledAt, batchMatVec, matVec, dotQ,
        slab, List.range_succ]
    intro hc
    rw [h1] at hc
    simp [addVec, AdvState.mk.injEq] at hc
    norm_num at hc

/-- C8 witness: a concrete configured filter (`[[2]]`, one slab) takes the
batched-multiply branch, and a dimensionless filter falls back to plain
addition. -/
theorem C8_filtered_rhs_application_witness :
    apply_advective_particle_rhs ⟨1, 1, [[1]], [[1]], [[2]], [[1]], [], 1, 1, 1, 1, 1⟩
        ⟨1, [], [1]⟩ [1] =
      (⟨1, [], addScaledAt [1] 0 1 (batchMatVec [[2]] 1 1 [1])⟩ : AdvState) ∧
    apply_advective_particle_rhs ⟨1, 1, [[1]], [[1]], [], [[1]], [], 1, 1, 1, 1, 1⟩
        ⟨1, [], [1]⟩ [1] =
      (⟨1, [], addVec [1] [1]⟩ : AdvState) := by
  constructor
  · exact (C8_filtered_rhs_application _ _ _).1 (by norm_num)
  · exact (C8_filtered_rhs_application _ _ _).2.1 (by norm_num)

-- C6: connection-array symmetry --------------------------------------------

theorem getD_set_self_of_lt {α : Type} (l : List α) (i : ℕ) (v d : α)
    (h : i < l.length) : (l.set i v).getD i d = v := by
  induction l generalizing i with
  | nil => simp at h
  | cons a as ih =>
    cases i with
    | zero => rfl
    | succ j =>
      have h' : j < as.length := by simp at h; omega
      exact ih j h'

theorem getD_set_ne' {α : Type} (l : List α) (i j : ℕ) (v d : α) (h : i ≠ j) :
    (l.set i v).getD j d = l.getD j d := by
  induction l generalizing i j with
  | nil => rfl
  | cons a as ih =>
    cases i with
    | zero =>
      cases j with
      | zero => exact absurd rfl h
      | succ k => rfl
    | succ m =>
      cases j with
      | zero => rfl
      | succ k => exact ih m k (fun he => h (by rw [he]))

theorem mem_set_self_of_lt {α : Type} (l : List α) (i : ℕ) (v : α)
    (h : i < l.length) : v ∈ l.set i v := by
  induction l generalizing i with
  | nil => simp at h
  | cons a as ih =>
    cases i with
    | zero => exact List.mem_cons_self _ _
    | succ j =>
      have h' : j < as.length := by simp at h; omega
      exact List.mem_cons_of_mem a (ih j h')

theorem mem_set_of_getD_ne {α : Type} (l : List α) (i : ℕ) (v x d : α)
    (hx : x ∈ l) (hne : l.getD i d ≠ x) : x ∈ l.set i v := by
  induction l generalizing i with
  | nil => simp at hx
  | cons a as ih =>
    cases i with
    | zero =>
      rcases List.mem_cons.mp hx with rfl | hxs
      · exact absurd (by simp : (x :: as).getD 0 d = x) hne
      · exact List.mem_cons_of_mem v hxs
    | succ j =>
      rcases List.mem_cons.mp hx with rfl | hxs
      · exact List.mem_cons_self _ _
      · exact List.mem_cons_of_mem a (ih j hxs (by simpa using hne))

theorem eq_or_mem_of_mem_set' {α : Type} (l : List α) (i : ℕ) (v x : α)
    (hx : x ∈ l.set i v) : x = v ∨ x ∈ l := by
  induction l generalizing i with
  | nil => simp [List.set] at hx
  | cons a as ih =>
    cases i with
    | zero =>
      rcases List.mem_cons.mp hx with rfl | hxs
      · exact Or.inl rfl
      · exact Or.inr (List.mem_cons_of_mem a hxs)
    | succ j =>
      rcases List.mem_cons.mp hx with rfl | hxs
      · exact Or.inr (List.mem_cons_self _ _)
      · rcases ih j hxs with h1 | h2
        · exact Or.inl h1
        · exact Or.inr (List.mem_cons_of_mem a h2)

theorem getD_eq_getElem_of_lt {α : Type} (l : List α) (d : α) (j : ℕ)
    (h : j < l.length) : l.getD j d = l.get ⟨j, h⟩ := by
  rw [List.getD_eq_getElem?_getD, List.getElem?_eq_getElem h]
  rfl

theorem findElement_isSome_iff (els : List Elem) (en : ℕ) :
    (findElement els en).isSome = true ↔
      (en ≠ INVALID_ELEMENT ∧ ∃ e ∈ els, e.id = en) := by
  unfold findElement
  split
  · next h => simp [h]
  · next h => simp [List.find?_isSome, h]

theorem updateFirstWithId_eq_map (els : List Elem) (tid : ℕ) (f : Elem → Elem)
    (hnd : (els.map Elem.id).Nodup) :
    updateFirstWithId els tid f = els.map (fun e => if e.id = tid then f e else e) := by
  induction els with
  | nil => rfl
  | cons e rest ih =>
    rw [List.map_cons, List.nodup_cons] at hnd
    by_cases h : e.id = tid
    · have hx_ne : ∀ x ∈ rest, x.id ≠ tid := by
        intro x hx he
        apply hnd.1
        have hxe : x.id = e.id := by rw [he, h]
        exact hxe ▸ List.mem_map_of_mem Elem.id hx
      have hmap : rest.map (fun x => if x.id = tid then f x else x) = rest := by
        conv_rhs => rw [← List.map_id rest]
        exact List.map_congr_left (fun x hx => by simp [hx_ne x hx])
      simp only [updateFirstWithId, if_pos h, List.map_cons, hmap]
    · simp only [updateFirstWithId, if_neg h, List.map_cons, ih hnd.2]

theorem map_id_updateFirstWithId (els : List Elem) (tid : ℕ) (f : Elem → Elem)
    (hf : ∀ e, (f e).id = e.id) :
    (updateFirstWithId els tid f).map Elem.id = els.map Elem.id := by
  induction els with
  | nil => rfl
  | cons e rest ih =>
    by_cases h : e.id = tid
    · simp only [updateFirstWithId, if_pos h, List.map_cons, hf]
    · simp only [updateFirstWithId, if_neg h, List.map_cons, ih]

theorem updateFirstWithId_getD_or (els : List Elem) (tid : ℕ) (f : Elem → Elem)
    (j : ℕ) (d : Elem) :
    (updateFirstWithId els tid f).getD j d = els.getD j d ∨
      (updateFirstWithId els tid f).getD j d = f (els.getD j d) := by
  induction els generalizing j with
  | nil => exact Or.inl rfl
  | cons e rest ih =>
    by_cases h : e.id = tid
    · cases j with
      | zero => exact Or.inr (by simp [updateFirstWithId, if_pos h])
      | succ k => exact Or.inl (by simp [updateFirstWithId, if_pos h])
    · cases j with
      | zero => exact Or.inl (by simp [updateFirstWithId, if_neg h])
      | succ k => simpa [updateFirstWithId, if_neg h] using ih k

theorem eraseConnTo_idem (el : Elem) (en : ℕ) :
    eraseConnTo (eraseConnTo el en) en = eraseConnTo el en := by
  have hc : ((el.conns.map (fun c => if c = en then INVALID_ELEMENT else c)).map
      (fun c => if c = en then INVALID_ELEMENT else c)) =
      el.conns.map (fun c => if c = en then INVALID_ELEMENT else c) := by
    rw [List.map_map]
    apply List.map_congr_left
    intro c _
    by_cases h : c = en
    · simp [Function.comp, h]
    · simp [Function.comp, h]
  simp [eraseConnTo, hc]

theorem killConnections_char (en : ℕ) (cs : List ℕ) :
    ∀ (els els1 : List Elem), killConnections els en cs = .ok els1 →
    (els1.map Elem.id = els.map Elem.id ∧
     ∀ (j : ℕ) (d : Elem), els1.getD j d = els.getD j d ∨
       els1.getD j d = eraseConnTo (els.getD j d) en) := by
  induction cs with
  | nil =>
    intro els els1 hok
    simp only [killConnections] at hok
    cases hok
    exact ⟨rfl, fun j d => Or.inl rfl⟩
  | cons c rest ih =>
    intro els els1 hok
    simp only [killConnections] at hok
    split at hok
    · cases hfe : findElement els c with
      | none => rw [hfe] at hok; simp at hok
      | some w =>
        rw [hfe] at hok
        obtain ⟨hmap, hpt⟩ := ih _ _ hok
        constructor
        · rw [hmap, map_id_updateFirstWithId]
          intro e; rfl
        · intro j d
          rcases hpt j d with h1 | h1
          · rcases updateFirstWithId_getD_or els c (fun b => eraseConnTo b en) j d
              with hu | hu
            · exact Or.inl (h1.trans hu)
            · exact Or.inr (h1.trans hu)
          · rcases updateFirstWithId_getD_or els c (fun b => eraseConnTo b en) j d
              with hu | hu
            · exact Or.inr (h1.trans (by rw [hu]))
            · exact Or.inr (h1.trans (by rw [hu, eraseConnTo_idem]))
    · exact ih _ _ hok

theorem nodup_get_not_mem_eraseIdx (l : List ℕ) :
    ∀ (i : ℕ) (h : i < l.length), l.Nodup → l.get ⟨i, h⟩ ∉ l.eraseIdx i := by
  induction l with
  | nil => intro i h; simp at h
  | cons a as ih =>
    intro i h hnd
    cases i with
    | zero => exact (List.nodup_cons.mp hnd).1
    | succ j =>
      have h' : j < as.length := by simp at h; omega
      intro hmem
      rcases List.mem_cons.mp hmem with heq | hmem'
      · have haa : as.get ⟨j, h'⟩ = a := heq
        apply (List.nodup_cons.mp hnd).1
        rw [← haa]
        exact List.get_mem as j h'
      · exact ih j h' (List.nodup_cons.mp hnd).2 hmem'

theorem map_eraseIdx_id : ∀ (l : List Elem) (i : ℕ),
    (l.eraseIdx i).map Elem.id = (l.map Elem.id).eraseIdx i := by
  intro l
  induction l with
  | nil => intro i; rfl
  | cons a as ih =>
    intro i
    cases i with
    | zero => rfl
    | succ j =>
      rw [List.eraseIdx_cons_succ, List.map_cons, List.map_cons,
        List.eraseIdx_cons_succ, ih]

theorem connectPatch_sym (md : MeshData) (els : List Elem)
    (hms : MeshSym md) (hinv : ∀ el ∈ els, el.id ≠ INVALID_ELEMENT) :
    SymmetricConns (connectPatch md els) := by
  intro a ha b hb hba
  unfold connectPatch at ha hb
  rcases List.mem_map.mp ha with ⟨ea, hea, rfl⟩
  rcases List.mem_map.mp hb with ⟨eb, heb, rfl⟩
  replace hba : eb.id ∈ (facesOf md ea.id).map
      (fun nb => if (findElement els nb).isSome then nb else INVALID_ELEMENT) := hba
  show ea.id ∈ (facesOf md eb.id).map
      (fun nb => if (findElement els nb).isSome then nb else INVALID_ELEMENT)
  rcases List.mem_map.mp hba with ⟨nb, hnb, hnbe⟩
  by_cases hs : (findElement els nb).isSome = true
  · rw [if_pos hs] at hnbe
    subst hnbe
    have hmesh : ea.id ∈ facesOf md eb.id := hms ea.id eb.id hnb (hinv eb heb)
    apply List.mem_map.mpr
    refine ⟨ea.id, hmesh, ?_⟩
    rw [if_pos]
    exact (findElement_isSome_iff els ea.id).mpr ⟨hinv ea hea, ea, hea, rfl⟩
  · rw [if_neg hs] at hnbe
    exact absurd hnbe.symm (hinv eb heb)

theorem wireFold_inv (md : MeshData) (opp_en : ℕ) (faces : List ℕ) :
    ∀ (conns : List ℕ) (els : List Elem) (conns' : List ℕ) (els' : List Elem),
    wireFold md opp_en faces conns els = .ok (conns', els') →
    (els.map Elem.id).Nodup →
    (∀ a ∈ els, a.id ≠ INVALID_ELEMENT) →
    opp_en ∉ els.map Elem.id →
    ConnsLengthOk md els →
    ConnsAligned md els →
    SymmetricConns els →
    (∀ a ∈ els, a.id ∈ conns → opp_en ∈ a.conns) →
    (∀ a ∈ els, opp_en ∈ a.conns → a.id ∈ conns) →
    (SymmetricConns els' ∧
     (∀ a ∈ els', a.id ∈ conns' → opp_en ∈ a.conns) ∧
     (∀ a ∈ els', opp_en ∈ a.conns → a.id ∈ conns')) := by
  induction faces with
  | nil =>
    intro conns els conns' els' hok hnd hinv hfresh hlen hal hsym h8 h9
    simp only [wireFold] at hok
    injection hok with h
    injection h with h1 h2
    subst h1
    subst h2
    exact ⟨hsym, h8, h9⟩
  | cons nb rest ih =>
    intro conns els conns' els' hok hnd hinv hfresh hlen hal hsym h8 h9
    simp only [wireFold] at hok
    cases hfe : findElement els nb with
    | none =>
      rw [hfe] at hok
      refine ih (conns ++ [INVALID_ELEMENT]) els conns' els' hok hnd hinv hfresh
        hlen hal hsym ?_ ?_
      · intro a ha hid
        rcases List.mem_append.mp hid with h1 | h2
        · exact h8 a ha h1
        · exact absurd (List.mem_singleton.mp h2) (hinv a ha)
      · intro a ha hopp
        exact List.mem_append.mpr (Or.inl (h9 a ha hopp))
    | some w =>
      rw [hfe] at hok
      by_cases hidx : (facesOf md nb).indexOf opp_en = (facesOf md nb).length
      · simp only [if_pos hidx] at hok
        exact Except.noConfusion hok
      · simp only [if_neg hidx] at hok
        have hidx_lt : (facesOf md nb).indexOf opp_en < (facesOf md nb).length :=
          Nat.lt_of_le_of_ne (List.indexOf_le_length) hidx
        have hfaces_idx : (facesOf md nb).getD ((facesOf md nb).indexOf opp_en)
            INVALID_ELEMENT = opp_en := by
          rw [getD_eq_getElem_of_lt _ _ _ hidx_lt]
          exact List.indexOf_get hidx_lt
        generalize hgen : (facesOf md nb).indexOf opp_en = idx at hok hidx_lt hfaces_idx
        rw [updateFirstWithId_eq_map els nb
          (fun b => { b with conns := b.conns.set idx opp_en }) hnd] at hok
        have hgid : ∀ e : Elem,
            ((if e.id = nb then { e with conns := e.conns.set idx opp_en }
              else e) : Elem).id = e.id := by
          intro e; by_cases h : e.id = nb <;> simp [h]
        have hgconns : ∀ e : Elem,
            ((if e.id = nb then { e with conns := e.conns.set idx opp_en }
              else e) : Elem).conns =
              (if e.id = nb then e.conns.set idx opp_en else e.conns) := by
          intro e; by_cases h : e.id = nb <;> simp [h]
        have hmapid : ((els.map (fun e => if e.id = nb
            then { e with conns := e.conns.set idx opp_en } else e)).map Elem.id) =
            els.map Elem.id := by
          rw [List.map_map]
          exact List.map_congr_left (fun e _ => hgid e)
        have hnd_u : (((els.map (fun e => if e.id = nb
            then { e with conns := e.conns.set idx opp_en } else e)).map Elem.id)).Nodup := by
          rw [hmapid]; exact hnd
        have hfresh_u : opp_en ∉ ((els.map (fun e => if e.id = nb
            then { e with conns := e.conns.set idx opp_en } else e)).map Elem.id) := by
          rw [hmapid]; exact hfresh
        have hinv_u : ∀ a ∈ els.map (fun e => if e.id = nb
            then { e with conns := e.conns.set idx opp_en } else e),
            a.id ≠ INVALID_ELEMENT := by
          intro a ha
          rcases List.mem_map.mp ha with ⟨e, he, rfl⟩
          simp only [hgid]
          exact hinv e he
        have hlen_u : ConnsLengthOk md (els.map (fun e => if e.id = nb
            then { e with conns := e.conns.set idx opp_en } else e)) := by
          intro a ha
          rcases List.mem_map.mp ha with ⟨e, he, rfl⟩
          simp only [hgid, hgconns]
          by_cases hce : e.id = nb
          · rw [if_pos hce, List.length_set]; exact hlen e he
          · rw [if_neg hce]; exact hlen e he
        have hal_u : ConnsAligned md (els.map (fun e => if e.id = nb
            then { e with conns := e.conns.set idx opp_en } else e)) := by
          intro a ha i hi
          rcases List.mem_map.mp ha with ⟨e, he, rfl⟩
          simp only [hgid, hgconns] at hi ⊢
          by_cases hce : e.id = nb
          · rw [if_pos hce] at hi ⊢
            by_cases hii : i = idx
            · subst hii
              have hlen_e : e.conns.length = (facesOf md nb).length := by
                have := hlen e he
                rwa [hce] at this
              rw [getD_set_self_of_lt _ _ _ _ (by rw [hlen_e]; exact hidx_lt)]
              rw [hce]
              exact hfaces_idx
            · rw [getD_set_ne' _ _ _ _ _ (fun h => hii h.symm)] at hi ⊢
              exact hal e he i hi
          · rw [if_neg hce] at hi ⊢
            exact hal e he i hi
        have hsym_u : SymmetricConns (els.map (fun e => if e.id = nb
            then { e with conns := e.conns.set idx opp_en } else e)) := by
          intro a ha b hb hba
          rcases List.mem_map.mp ha with ⟨ea, hea, rfl⟩
          rcases List.mem_map.mp hb with ⟨eb, heb, rfl⟩
          simp only [hgid, hgconns] at hba ⊢
          have hbid_ne_opp : eb.id ≠ opp_en := by
            intro h; exact hfresh (h ▸ List.mem_map_of_mem Elem.id heb)
          have haid_ne_opp : ea.id ≠ opp_en := by
            intro h; exact hfresh (h ▸ List.mem_map_of_mem Elem.id hea)
          have hba0 : eb.id ∈ ea.conns := by
            by_cases hae : ea.id = nb
            · rw [if_pos hae] at hba
              rcases eq_or_mem_of_mem_set' _ _ _ _ hba with heq | hm
              · exact absurd heq hbid_ne_opp
              · exact hm
            · rwa [if_neg hae] at hba
          have hab0 : ea.id ∈ eb.conns := hsym ea hea eb heb hba0
          by_cases hbe : eb.id = nb
          · rw [if_pos hbe]
            apply mem_set_of_getD_ne eb.conns idx opp_en ea.id INVALID_ELEMENT hab0
            by_cases hent : eb.conns.getD idx INVALID_ELEMENT = INVALID_ELEMENT
            · rw [hent]
              exact fun h => hinv ea hea h.symm
            · have hthis := hal eb heb idx hent
              rw [hbe] at hthis
              rw [← hthis, hfaces_idx]
              exact fun h => haid_ne_opp h.symm
          · rwa [if_neg hbe]
        have h8_u : ∀ a ∈ els.map (fun e => if e.id = nb
            then { e with conns := e.conns.set idx opp_en } else e),
            a.id ∈ conns ++ [nb] → opp_en ∈ a.conns := by
          intro a ha hid
          rcases List.mem_map.mp ha with ⟨e, he, rfl⟩
          simp only [hgid, hgconns] at hid ⊢
          by_cases hce : e.id = nb
          · rw [if_pos hce]
            apply mem_set_self_of_lt
            rw [hlen e he, hce]
            exact hidx_lt
          · rw [if_neg hce]
            rcases List.mem_append.mp hid with h1 | h2
            · exact h8 e he h1
            · exact absurd (List.mem_singleton.mp h2) hce
        have h9_u : ∀ a ∈ els.map (fun e => if e.id = nb
            then { e with conns := e.conns.set idx opp_en } else e),
            opp_en ∈ a.conns → a.id ∈ conns ++ [nb] := by
          intro a ha hopp
          rcases List.mem_map.mp ha with ⟨e, he, rfl⟩
          simp only [hgid, hgconns] at hopp ⊢
          by_cases hce : e.id = nb
          · exact List.mem_append.mpr (Or.inr (by rw [hce]; exact List.mem_singleton.mpr rfl))
          · rw [if_neg hce] at hopp
            exact List.mem_append.mpr (Or.inl (h9 e he hopp))
        exact ih (conns ++ [nb]) _ conns' els' hok hnd_u hinv_u hfresh_u hlen_u
          hal_u hsym_u h8_u h9_u

theorem activateWire_sym (md : MeshData) (els : List Elem) (opp_en startIdx : ℕ)
    (els' : List Elem)
    (hnd : (els.map Elem.id).Nodup)
    (hinv : ∀ a ∈ els, a.id ≠ INVALID_ELEMENT)
    (hfresh : opp_en ∉ els.map Elem.id)
    (hlen : ConnsLengthOk md els)
    (hal : ConnsAligned md els)
    (hnc : ∀ a ∈ els, opp_en ∉ a.conns)
    (hsym : SymmetricConns els)
    (hok : activateWire md els opp_en startIdx = .ok els') :
    SymmetricConns els' := by
  unfold activateWire at hok
  cases hw : wireFold md opp_en (facesOf md opp_en) [] els with
  | error e => rw [hw] at hok; simp at hok
  | ok pr =>
    rw [hw] at hok
    obtain ⟨cs, es1⟩ := pr
    cases hok
    obtain ⟨hsym1, h8, h9⟩ := wireFold_inv md opp_en (facesOf md opp_en) [] els cs es1
      hw hnd hinv hfresh hlen hal hsym
      (fun a _ h => absurd h (List.not_mem_nil _))
      (fun a ha h => absurd h (hnc a ha))
    intro a ha b hb hba
    rcases List.mem_append.mp ha with haL | haR
    · rcases List.mem_append.mp hb with hbL | hbR
      · exact hsym1 a haL b hbL hba
      · have hbeq : b = ⟨opp_en, cs, startIdx, 10⟩ := List.mem_singleton.mp hbR
        subst hbeq
        exact h9 a haL hba
    · have haeq : a = ⟨opp_en, cs, startIdx, 10⟩ := List.mem_singleton.mp haR
      subst haeq
      rcases List.mem_append.mp hb with hbL | hbR
      · exact h8 b hbL hba
      · have hbeq : b = ⟨opp_en, cs, startIdx, 10⟩ := List.mem_singleton.mp hbR
        subst hbeq
        exact hba

theorem retireStep_sym (els : List Elem) (i : ℕ) (els' : List Elem)
    (hnd : (els.map Elem.id).Nodup)
    (hinv : ∀ a ∈ els, a.id ≠ INVALID_ELEMENT)
    (hi : i < els.length)
    (hsym : SymmetricConns els)
    (hok : retireStep els i = .ok els') :
    SymmetricConns els' := by
  simp only [retireStep] at hok
  cases hk : killConnections els (els.getD i ⟨0, [], 0, 0⟩).id
      (els.getD i ⟨0, [], 0, 0⟩).conns with
  | error e => rw [hk] at hok; simp at hok
  | ok els1 =>
    rw [hk] at hok
    cases hok
    obtain ⟨hmap, hpt⟩ := killConnections_char (els.getD i ⟨0, [], 0, 0⟩).id
      (els.getD i ⟨0, [], 0, 0⟩).conns els els1 hk
    have hlen1 : els1.length = els.length := by
      have hc := congrArg List.length hmap
      simpa using hc
    have hi' : i < (els.map Elem.id).length := by simpa using hi
    have hen : (els.getD i ⟨0, [], 0, 0⟩).id ∉ (els1.eraseIdx i).map Elem.id := by
      rw [map_eraseIdx_id, hmap]
      have hget : (els.map Elem.id).get ⟨i, hi'⟩ = (els.getD i ⟨0, [], 0, 0⟩).id := by
        rw [getD_eq_getElem_of_lt els ⟨0, [], 0, 0⟩ i hi]
        simp
      intro hmem
      exact nodup_get_not_mem_eraseIdx _ i hi' hnd (hget ▸ hmem)
    intro a ha b hb hba
    have ham : a ∈ els1 := (List.eraseIdx_sublist els1 i).subset ha
    have hbm : b ∈ els1 := (List.eraseIdx_sublist els1 i).subset hb
    obtain ⟨ja, hja, haj⟩ := List.mem_iff_getElem.mp ham
    obtain ⟨jb, hjb, hbj⟩ := List.mem_iff_getElem.mp hbm
    have hja' : ja < els.length := hlen1 ▸ hja
    have hjb' : jb < els.length := hlen1 ▸ hjb
    have ha0 : a = els.getD ja ⟨0, [], 0, 0⟩ ∨
        a = eraseConnTo (els.getD ja ⟨0, [], 0, 0⟩) (els.getD i ⟨0, [], 0, 0⟩).id := by
      have hga : els1.getD ja ⟨0, [], 0, 0⟩ = a := by
        rw [getD_eq_getElem_of_lt els1 ⟨0, [], 0, 0⟩ ja hja]
        exact haj
      rcases hpt ja ⟨0, [], 0, 0⟩ with h1 | h1
      · exact Or.inl (hga ▸ h1)
      · exact Or.inr (hga ▸ h1)
    have hb0 : b = els.getD jb ⟨0, [], 0, 0⟩ ∨
        b = eraseConnTo (els.getD jb ⟨0, [], 0, 0⟩) (els.getD i ⟨0, [], 0, 0⟩).id := by
      have hgb : els1.getD jb ⟨0, [], 0, 0⟩ = b := by
        rw [getD_eq_getElem_of_lt els1 ⟨0, [], 0, 0⟩ jb hjb]
        exact hbj
      rcases hpt jb ⟨0, [], 0, 0⟩ with h1 | h1
      · exact Or.inl (hgb ▸ h1)
      · exact Or.inr (hgb ▸ h1)
    have ha0m : els.getD ja ⟨0, [], 0, 0⟩ ∈ els := getD_mem_of_lt els ja _ hja'
    have hb0m : els.getD jb ⟨0, [], 0, 0⟩ ∈ els := getD_mem_of_lt els jb _ hjb'
    have haid : a.id = (els.getD ja ⟨0, [], 0, 0⟩).id := by
      rcases ha0 with h | h <;> rw [h] <;> rfl
    have hbid : b.id = (els.getD jb ⟨0, [], 0, 0⟩).id := by
      rcases hb0 with h | h <;> rw [h] <;> rfl
    have hbid_ne : b.id ≠ INVALID_ELEMENT := by
      rw [hbid]; exact hinv _ hb0m
    have hba0 : (els.getD jb ⟨0, [], 0, 0⟩).id ∈ (els.getD ja ⟨0, [], 0, 0⟩).conns := by
      rw [← hbid]
      rcases ha0 with h | h
      · rw [h] at hba; exact hba
      · rw [h] at hba
        replace hba : b.id ∈ (els.getD ja ⟨0, [], 0, 0⟩).conns.map
            (fun c => if c = (els.getD i ⟨0, [], 0, 0⟩).id then INVALID_ELEMENT
              else c) := hba
        rcases List.mem_map.mp hba with ⟨c, hc, hcx⟩
        by_cases hce : c = (els.getD i ⟨0, [], 0, 0⟩).id
        · rw [if_pos hce] at hcx
          exact absurd hcx.symm hbid_ne
        · rw [if_neg hce] at hcx
          rw [← hcx]
          exact hc
    have hab0 : (els.getD ja ⟨0, [], 0, 0⟩).id ∈ (els.getD jb ⟨0, [], 0, 0⟩).conns :=
      hsym _ ha0m _ hb0m hba0
    have ha_ne_en : (els.getD ja ⟨0, [], 0, 0⟩).id ≠ (els.getD i ⟨0, [], 0, 0⟩).id := by
      intro heq
      apply hen
      have hmm : a.id ∈ (els1.eraseIdx i).map Elem.id := List.mem_map_of_mem Elem.id ha
      rwa [haid, heq] at hmm
    rw [haid]
    rcases hb0 with h | h
    · rw [h]
      exact hab0
    · rw [h]
      show (els.getD ja ⟨0, [], 0, 0⟩).id ∈ (els.getD jb ⟨0, [], 0, 0⟩).conns.map
        (fun c => if c = (els.getD i ⟨0, [], 0, 0⟩).id then INVALID_ELEMENT else c)
      exact List.mem_map.mpr ⟨(els.getD ja ⟨0, [], 0, 0⟩).id, hab0, if_neg ha_ne_en⟩

/-- C6: the bidirectional connection invariant.  After the connection-making
loop of `add_advective_particle` (on a symmetric mesh whose covering element
ids are valid), after a dynamic activation inside `calculate_fluxes` (wiring
a fresh, so-far-unnamed element into a well-formed patch), and after a
retirement inside `perform_reconstructor_upkeep`, the patch connection
arrays are symmetric: if A names B then B names A. -/
theorem C6_connection_symmetry :
    (∀ (cfg : Config) (md : MeshData) (st : AdvState) (sampled : List Elem)
        (shape0 charge : ℚ), MeshSym md →
      (∀ el ∈ sampled, el.id ≠ INVALID_ELEMENT) →
      SymmetricConns ((add_advective_particle cfg md st sampled shape0 charge).2.1.elements)) ∧
    (∀ (md : MeshData) (els : List Elem) (opp_en startIdx : ℕ) (els' : List Elem),
      (els.map Elem.id).Nodup →
      (∀ a ∈ els, a.id ≠ INVALID_ELEMENT) →
      opp_en ∉ els.map Elem.id →
      ConnsLengthOk md els →
      ConnsAligned md els →
      (∀ a ∈ els, opp_en ∉ a.conns) →
      SymmetricConns els →
      activateWire md els opp_en startIdx = .ok els' →
      SymmetricConns els') ∧
    (∀ (els : List Elem) (i : ℕ) (els' : List Elem),
      (els.map Elem.id).Nodup →
      (∀ a ∈ els, a.id ≠ INVALID_ELEMENT) →
      i < els.length →
      SymmetricConns els →
      retireStep els i = .ok els' →
      SymmetricConns els') := by
  refine ⟨?_, ?_, ?_⟩
  · intro cfg md st sampled shape0 charge hms hinv
    exact connectPatch_sym md sampled hms hinv
  · intro md els opp_en startIdx els' hnd hinv hfresh hlen hal hnc hsym hok
    exact activateWire_sym md els opp_en startIdx els' hnd hinv hfresh hlen hal
      hnc hsym hok
  · intro els i els' hnd hinv hi hsym hok
    exact retireStep_sym els i els' hnd hinv hi hsym hok

/-- Witness for C6 on a concrete two-element mesh: a freshly added
two-element patch, a one-element patch that activates its neighbor, and a
two-element patch that retires its first element all end up with symmetric
connection arrays. -/
theorem C6_connection_symmetry_witness :
    SymmetricConns ((add_advective_particle
        ⟨1, 1, [[1]], [[1]], [], [[1]], [], 1, 1, 1, 1, 1⟩
        ⟨fun _ _ => none, [[1], [0]], fun _ => 1, fun _ => []⟩
        ⟨2, [], [1, 1]⟩ [⟨0, [0], 0, 0⟩, ⟨1, [0], 1, 0⟩] 1 1).2.1.elements) ∧
    SymmetricConns [⟨0, [1], 0, 0⟩, ⟨1, [0], 1, 10⟩] ∧
    SymmetricConns [⟨1, [4294967295], 1, 3⟩] := by
  obtain ⟨h1, h2, h3⟩ := C6_connection_symmetry
  refine ⟨?_, ?_, ?_⟩
  · apply h1
    · intro y x hx hxne
      match y with
      | 0 =>
        have hx1 : x = 1 := by simpa [facesOf] using hx
        subst hx1
        simp [facesOf]
      | 1 =>
        have hx0 : x = 0 := by simpa [facesOf] using hx
        subst hx0
        simp [facesOf]
      | (n + 2) =>
        simp [facesOf] at hx
    · decide
  · apply h2 ⟨fun _ _ => none, [[1], [0]], fun _ => 1, fun _ => []⟩
      [⟨0, [4294967295], 0, 0⟩] 1 1 [⟨0, [1], 0, 0⟩, ⟨1, [0], 1, 10⟩]
      (by decide) (by decide) (by decide)
    · intro el hel
      have hel' : el = ⟨0, [4294967295], 0, 0⟩ := List.mem_singleton.mp hel
      subst hel'
      rfl
    · intro el hel i hne
      have hel' : el = ⟨0, [4294967295], 0, 0⟩ := List.mem_singleton.mp hel
      subst hel'
      exact absurd (by cases i with | zero => rfl | succ k => rfl) hne
    · decide
    · unfold SymmetricConns
      decide
    · rfl
  · exact h3 [⟨0, [1], 0, 0⟩, ⟨1, [0], 1, 3⟩] 0 [⟨1, [4294967295], 1, 3⟩]
      (by decide) (by decide) (by decide) (by unfold SymmetricConns; decide) rfl

end Pyrticle
